import Mathlib

/-!
# RDES2 row/delta encoder (`rdes2.h`, `rdes2.cpp`)

A shallow embedding of the class `RDES2Comp` and a verification of its
wire format.

Machine integers are natural numbers; every place where the C++ code
narrows or may wrap carries an explicit `% 2 ^ w`.  The two raw pointers
of the class are modelled as total memories `Nat → Nat` (index to cell
content), because the code indexes them without any bounds check.
-/

/-- The private constant `LVL_2_MAX` of `rdes2.h` (2^13 - 1). -/
def LVL_2_MAX : Nat := 8191

/-- The private constant `LVL_3_MAX` of `rdes2.h` (2^21 - 1). -/
def LVL_3_MAX : Nat := 2097151

/-- The data members of the class `RDES2Comp` (`rdes2.h`), one field per
member and under the member's name.  `_storagePntr` and `_lastValsPntr`
are the memories behind the two pointers.  `stores` is a history variable
that is not a member of the class: it records, in program order, every
assignment `_storagePntr[_storagePos] = in` made by `writeByte` as the pair
(index, byte). -/
structure RDES2Comp where
  _numCols : Nat
  _originRefreshInt : Nat
  _rowsSinceRaw : Nat
  _initialized : Bool
  _storagePos : Nat
  _lastValsPntr : Nat → Nat
  _storagePntr : Nat → Nat
  stores : List (Nat × Nat)

namespace RDES2Comp

/-- The constructor `RDES2Comp::RDES2Comp(numCols, originRefreshInt, storage)`.
`new uint32_t[numCols]` yields an array of indeterminate content, which is
the extra argument `heap`.  The arguments are narrowed to their parameter
types `uint8_t` and `uint16_t`. -/
def new (numCols originRefreshInt : Nat) (storage : Nat → Nat) (heap : Nat → Nat) :
    RDES2Comp :=
  { _numCols := numCols % 2 ^ 8
    _originRefreshInt := originRefreshInt % 2 ^ 16
    _storagePntr := storage
    _storagePos := 0
    _rowsSinceRaw := 0
    _initialized := false
    _lastValsPntr := heap
    stores := [] }

/-- The observer `RDES2Comp::getSize`. -/
def getSize (s : RDES2Comp) : Nat :=
  s._storagePos

/-- The method `RDES2Comp::unsignify(int32_t value)`, whose body is
`return (uint32_t)(value + 536870911U)`: the signed argument is converted to
the unsigned 32-bit type of the literal, and the sum is taken in that type.
`s` is the object the method is called on; the body uses none of its
members and assigns none, so the result is the returned value alone. -/
def unsignify (_s : RDES2Comp) (value : Int) : Nat :=
  ((value % 2 ^ 32).toNat + 536870911) % 2 ^ 32

/-- The method `RDES2Comp::writeByte`: store `in` at the cursor, then
`_storagePos++` on a `uint32_t`. -/
def writeByte (s : RDES2Comp) (b : Nat) : RDES2Comp :=
  { s with
    _storagePntr := Function.update s._storagePntr s._storagePos b
    stores := s.stores ++ [(s._storagePos, b)]
    _storagePos := (s._storagePos + 1) % 2 ^ 32 }

/-- The method `RDES2Comp::writeUint32`.  Each local is a `uint8_t`, so each
initialiser is narrowed with `% 2 ^ 8`. -/
def writeUint32 (s : RDES2Comp) (v : Nat) : RDES2Comp :=
  let byte1 := (127 &&& (v >>> 24)) % 2 ^ 8
  let byte2 := (v >>> 16) % 2 ^ 8
  let byte3 := (v >>> 8) % 2 ^ 8
  let byte4 := v % 2 ^ 8
  writeByte (writeByte (writeByte (writeByte s byte1) byte2) byte3) byte4

/-- Element `rowData[col]` of the caller's row.  The C++ code reads through
a bare pointer; a read past the end of the supplied row is given the value
0 here. -/
def rowAt (rowData : List Nat) (col : Nat) : Nat :=
  rowData.getD col 0

/-- Body of the first loop of `writeRow` (lines 69-70): remember the value,
then write it raw. -/
def rawCol (rowData : List Nat) (s : RDES2Comp) (col : Nat) : RDES2Comp :=
  let s1 := { s with _lastValsPntr := Function.update s._lastValsPntr col (rowAt rowData col) }
  writeUint32 s1 (rowAt rowData col)

/-- Body of the second loop of `writeRow` (lines 80-136). -/
def deltaCol (rowData : List Nat) (s : RDES2Comp) (col : Nat) : RDES2Comp :=
  let lastVal := s._lastValsPntr col
  let curVal := rowAt rowData col
  let signAdd : Bool := decide (curVal ≥ lastVal)
  let offset := if signAdd then (curVal - lastVal) % 2 ^ 32 else (lastVal - curVal) % 2 ^ 32
  let lvl := if offset ≤ LVL_2_MAX then 2 else if offset ≤ LVL_3_MAX then 3 else 4
  let s1 :=
    match lvl with
    | 2 =>
      let byte1 := (224 ||| (offset >>> 8)) % 2 ^ 8
      let byte2 := offset % 2 ^ 8
      let byte1 := if !signAdd then (byte1 &&& 191) % 2 ^ 8 else byte1
      let byte1 := (byte1 &&& 223) % 2 ^ 8
      writeByte (writeByte s byte1) byte2
    | 3 =>
      let byte1 := (224 ||| (offset >>> 16)) % 2 ^ 8
      let byte2 := (offset >>> 8) % 2 ^ 8
      let byte3 := offset % 2 ^ 8
      let byte1 := if !signAdd then (byte1 &&& 191) % 2 ^ 8 else byte1
      writeByte (writeByte (writeByte s byte1) byte2) byte3
    | _ => writeUint32 s (rowAt rowData col)
  { s1 with _lastValsPntr := Function.update s1._lastValsPntr col (rowAt rowData col) }

/-- The local `lvl` of the second loop of `writeRow` (lines 84-93) as a
function of `lastVal` and `curVal`: the number of bytes the column will take. -/
def lvlOf (lastVal curVal : Nat) : Nat :=
  let signAdd : Bool := decide (curVal ≥ lastVal)
  let offset := if signAdd then (curVal - lastVal) % 2 ^ 32 else (lastVal - curVal) % 2 ^ 32
  if offset ≤ LVL_2_MAX then 2 else if offset ≤ LVL_3_MAX then 3 else 4

/-- The loop header `for (int col=0; col<_numCols; col++)`: the body runs for
`col = 0, 1, ..., _numCols - 1`; `_numCols` is not assigned by either body. -/
def forCols (body : RDES2Comp → Nat → RDES2Comp) (s : RDES2Comp) : RDES2Comp :=
  (List.range s._numCols).foldl body s

/-- The method `RDES2Comp::writeRow`; the Boolean is the returned value. -/
def writeRow (s : RDES2Comp) (rowData : List Nat) : RDES2Comp × Bool :=
  let refreshOrigin : Bool :=
    decide (s._originRefreshInt > 0) && decide (s._rowsSinceRaw ≥ s._originRefreshInt)
  if !s._initialized || refreshOrigin then
    let s1 := forCols (rawCol rowData) s
    ({ s1 with _rowsSinceRaw := 0, _initialized := true }, true)
  else
    (forCols (deltaCol rowData) s, true)

end RDES2Comp

/-- The bytes handed to `writeByte` so far, in the order of the calls. -/
def bytesWritten (s : RDES2Comp) : List Nat :=
  s.stores.map Prod.snd

/-- Calling `writeRow` on each row in order. -/
def writeRows (s : RDES2Comp) (rows : List (List Nat)) : RDES2Comp :=
  rows.foldl (fun st r => (RDES2Comp.writeRow st r).1) s

/-- State of the second loop of `writeRow` on entry to the iteration for
column `col`, that is, after the iterations for columns `0 .. col - 1`. -/
def deltaLoopAt (s : RDES2Comp) (rowData : List Nat) (col : Nat) : RDES2Comp :=
  (List.range col).foldl (RDES2Comp.deltaCol rowData) s

/-- State of the first loop of `writeRow` on entry to the iteration for
column `col`. -/
def rawLoopAt (s : RDES2Comp) (rowData : List Nat) (col : Nat) : RDES2Comp :=
  (List.range col).foldl (RDES2Comp.rawCol rowData) s

/-- The condition under which `writeRow` takes its first branch (line 66). -/
def keyframeDue (s : RDES2Comp) : Prop :=
  s._initialized = false ∨ (0 < s._originRefreshInt ∧ s._originRefreshInt ≤ s._rowsSinceRaw)

instance (s : RDES2Comp) : Decidable (keyframeDue s) := by
  unfold keyframeDue; infer_instance

/-- Modelled from the spec: the RawValue code of the wire-format table
(4 bytes: bit 7 clear and value bits 30-24, then value bits 23-16, 15-8,
7-0). -/
def RawValue (v : Nat) : List Nat :=
  [v / 2 ^ 24 % 2 ^ 7, v / 2 ^ 16 % 2 ^ 8, v / 2 ^ 8 % 2 ^ 8, v % 2 ^ 8]

/-- Modelled from the spec: the Delta2 code (bit 7 set, bit 6 = signAdd,
bit 5 clear, magnitude bits 12-8; then magnitude bits 7-0). -/
def Delta2 (signAdd : Bool) (magnitude : Nat) : List Nat :=
  [0x80 ||| ((if signAdd then 1 else 0) <<< 6) ||| (magnitude >>> 8), magnitude &&& 0xFF]

/-- Modelled from the spec: the Delta3 code (bit 7 set, bit 6 = signAdd,
bit 5 set, magnitude bits 20-16; then magnitude bits 15-8 and 7-0). -/
def Delta3 (signAdd : Bool) (magnitude : Nat) : List Nat :=
  [0x80 ||| ((if signAdd then 1 else 0) <<< 6) ||| 0x20 ||| (magnitude >>> 16),
   (magnitude >>> 8) &&& 0xFF, magnitude &&& 0xFF]

/-- Modelled from the spec: `magnitude = |row[c] - lastValues[c]|`, the exact
(mathematical) difference of the two values. -/
def magnitude (last cur : Nat) : Nat :=
  if cur ≥ last then cur - last else last - cur

/-- Modelled from the spec: the code of a column in a delta row (section 4.1,
step 3): sign, magnitude and level selection, with the raw fallback. -/
def deltaCode (last cur : Nat) : List Nat :=
  let signAdd : Bool := decide (cur ≥ last)
  let magnitude := if cur ≥ last then cur - last else last - cur
  if magnitude ≤ 8191 then Delta2 signAdd magnitude
  else if magnitude ≤ 2097151 then Delta3 signAdd magnitude
  else RawValue cur

/-- Modelled from the spec: the repository has no decoder, the wire format
is its contract.  Decodes the code at the head of `bytes` for a column whose
previously decoded value is `prev`: bit 7 of the leading byte clear means a
4-byte raw value; bit 7 set means a delta, added when bit 6 is set and
subtracted otherwise, of 2 bytes when bit 5 is clear and of 3 bytes when it
is set.  Returns the value and the unread bytes. -/
def decodeCode (prev : Option Nat) : List Nat → Option (Nat × List Nat)
  | [] => none
  | b0 :: rest =>
    if b0.testBit 7 = false then
      match rest with
      | b1 :: b2 :: b3 :: rest3 => some (b0 * 2 ^ 24 + b1 * 2 ^ 16 + b2 * 2 ^ 8 + b3, rest3)
      | _ => none
    else
      match prev with
      | none => none
      | some last =>
        if b0.testBit 5 = false then
          match rest with
          | b1 :: rest1 =>
            let magnitude := b0 % 2 ^ 5 * 2 ^ 8 + b1
            some (if b0.testBit 6 then last + magnitude else last - magnitude, rest1)
          | _ => none
        else
          match rest with
          | b1 :: b2 :: rest2 =>
            let magnitude := b0 % 2 ^ 5 * 2 ^ 16 + b1 * 2 ^ 8 + b2
            some (if b0.testBit 6 then last + magnitude else last - magnitude, rest2)
          | _ => none

/-- Modelled from the spec: decodes one row, one code per column, against the
previously decoded values `prevs` of the columns. -/
def decodeRow : List (Option Nat) → List Nat → Option (List Nat × List Nat)
  | [], bytes => some ([], bytes)
  | p :: ps, bytes =>
    match decodeCode p bytes with
    | none => none
    | some (v, rest) =>
      match decodeRow ps rest with
      | none => none
      | some (vs, rest1) => some (v :: vs, rest1)

/-- Modelled from the spec: decodes rows until the stream is used up; fails on
a truncated stream.  `fuel` bounds the number of rows. -/
def decodeRows : Nat → List (Option Nat) → List Nat → Option (List (List Nat))
  | _, _, [] => some []
  | 0, _, _ :: _ => none
  | fuel + 1, prevs, b :: bs =>
    match decodeRow prevs (b :: bs) with
    | none => none
    | some (row, rest) =>
      match decodeRows fuel (row.map some) rest with
      | none => none
      | some rows => some (row :: rows)

/-- Modelled from the spec: the decoder of a whole stream.  It is given only
the number of columns; no column has a previous value at the start. -/
def decode (numColumns : Nat) (bytes : List Nat) : Option (List (List Nat)) :=
  decodeRows bytes.length (List.replicate numColumns none) bytes

/-- What the decoder knows of the columns when the encoder is in state `s`:
nothing constrains it before the first row; afterwards its previous values are
the `_lastValsPntr` of the encoder, which are 32-bit values. -/
def InSync (s : RDES2Comp) (prevs : List (Option Nat)) : Prop :=
  prevs.length = s._numCols ∧
  (s._initialized = true →
    prevs = (List.range s._numCols).map (fun c => some (s._lastValsPntr c)) ∧
    ∀ c, c < s._numCols → s._lastValsPntr c < 2 ^ 32)

/-- The cursor equals the number of stores made so far, reduced to a
`uint32_t`.  It holds at construction and is kept by every method. -/
def CursorCounts (s : RDES2Comp) : Prop :=
  s._storagePos = s.stores.length % 2 ^ 32

/-- An initialized state used to instantiate the theorems: the encoder of two
columns, refresh interval 0, after the row `[100, 100000]`. -/
def sampleState : RDES2Comp :=
  ((RDES2Comp.new 2 0 (fun _ => 0) (fun _ => 0)).writeRow [100, 100000]).1

/-- Content of a memory after the stores of `stores` (index, byte), made in
order, on a memory whose content was `init`. -/
def replay (init : Nat → Nat) (stores : List (Nat × Nat)) : Nat → Nat :=
  stores.foldl (fun mem e => Function.update mem e.1 e.2) init

/-- The history variable `stores` agrees with the members it shadows: the
buffer behind `_storagePntr` is the caller's buffer `init` after these stores,
the `k`-th store went to index `k` (as a `uint32_t`), and the cursor is their
number (as a `uint32_t`). -/
def Buffered (init : Nat → Nat) (s : RDES2Comp) : Prop :=
  s._storagePntr = replay init s.stores ∧
  s.stores.map Prod.fst = (List.range s.stores.length).map (fun k => k % 2 ^ 32) ∧
  s._storagePos = s.stores.length % 2 ^ 32

/-- State `t` differs from state `s`, as far as the buffer goes, by the stores
`new` made after `s`: they are appended to the history, the buffer is the
buffer of `s` after them, the `k`-th of them went to index
`_storagePos + k` (as a `uint32_t`), and the cursor moved by their number. -/
def AppendedBy (s t : RDES2Comp) (new : List (Nat × Nat)) : Prop :=
  t.stores = s.stores ++ new ∧
  t._storagePntr = replay s._storagePntr new ∧
  new.map Prod.fst = (List.range new.length).map (fun k => (s._storagePos + k) % 2 ^ 32) ∧
  t._storagePos = (s._storagePos + new.length) % 2 ^ 32

/-- The number of bytes one `writeRow` call takes in state `s`: 4 per column
on the keyframe branch, the level of each column on the delta branch. -/
def rowCost (s : RDES2Comp) (rowData : List Nat) : Nat :=
  if keyframeDue s then 4 * s._numCols
  else ((List.range s._numCols).map
    (fun c => RDES2Comp.lvlOf (s._lastValsPntr c) (RDES2Comp.rowAt rowData c))).sum

/-- Modelled from the spec: what bounds checking against a declared capacity
asks of one `writeRow` call (sections 3 and 7): no store of the call goes to
an index outside the buffer, the cursor does not pass the capacity, and a row
that does not fit makes the call report a failure. -/
def BoundsChecked (capacity : Nat) (s : RDES2Comp) (rowData : List Nat) : Prop :=
  (∀ e ∈ (s.writeRow rowData).1.stores.drop s.stores.length, e.1 < capacity) ∧
  (s.writeRow rowData).1.getSize ≤ capacity ∧
  (capacity < s.getSize + rowCost s rowData → (s.writeRow rowData).2 = false)

/-- Modelled from the spec: the wire-format decoder working modulo 2^31.  A
raw code gives its 31-bit value; a delta code adds the magnitude to, or
subtracts it from, the previously decoded value of the column modulo 2^31. -/
def decodeCode31 (prev : Option Nat) : List Nat → Option (Nat × List Nat)
  | [] => none
  | b0 :: rest =>
    if b0.testBit 7 = false then
      match rest with
      | b1 :: b2 :: b3 :: rest3 =>
        some ((b0 * 2 ^ 24 + b1 * 2 ^ 16 + b2 * 2 ^ 8 + b3) % 2 ^ 31, rest3)
      | _ => none
    else
      match prev with
      | none => none
      | some last =>
        if b0.testBit 5 = false then
          match rest with
          | b1 :: rest1 =>
            let magnitude := b0 % 2 ^ 5 * 2 ^ 8 + b1
            some (if b0.testBit 6 then (last + magnitude) % 2 ^ 31
              else (last + 2 ^ 31 - magnitude % 2 ^ 31) % 2 ^ 31, rest1)
          | _ => none
        else
          match rest with
          | b1 :: b2 :: rest2 =>
            let magnitude := b0 % 2 ^ 5 * 2 ^ 16 + b1 * 2 ^ 8 + b2
            some (if b0.testBit 6 then (last + magnitude) % 2 ^ 31
              else (last + 2 ^ 31 - magnitude % 2 ^ 31) % 2 ^ 31, rest2)
          | _ => none

/-- Modelled from the spec: one row of the decoder working modulo 2^31. -/
def decodeRow31 : List (Option Nat) → List Nat → Option (List Nat × List Nat)
  | [], bytes => some ([], bytes)
  | p :: ps, bytes =>
    match decodeCode31 p bytes with
    | none => none
    | some (v, rest) =>
      match decodeRow31 ps rest with
      | none => none
      | some (vs, rest1) => some (v :: vs, rest1)

/-- Modelled from the spec: the rows of the decoder working modulo 2^31, until
the stream is used up; `fuel` bounds the number of rows. -/
def decodeRows31 : Nat → List (Option Nat) → List Nat → Option (List (List Nat))
  | _, _, [] => some []
  | 0, _, _ :: _ => none
  | fuel + 1, prevs, b :: bs =>
    match decodeRow31 prevs (b :: bs) with
    | none => none
    | some (row, rest) =>
      match decodeRows31 fuel (row.map some) rest with
      | none => none
      | some rows => some (row :: rows)

/-- Modelled from the spec: the decoder working modulo 2^31 on a whole stream,
given only the number of columns. -/
def decode31 (numColumns : Nat) (bytes : List Nat) : Option (List (List Nat)) :=
  decodeRows31 bytes.length (List.replicate numColumns none) bytes

/-- What the decoder working modulo 2^31 knows of the columns when the encoder
is in state `s`: after the first row its previous values are the low 31 bits
of the `_lastValsPntr` of the encoder, which are 32-bit values. -/
def InSync31 (s : RDES2Comp) (prevs : List (Option Nat)) : Prop :=
  prevs.length = s._numCols ∧
  (s._initialized = true →
    prevs = (List.range s._numCols).map (fun c => some (s._lastValsPntr c % 2 ^ 31)) ∧
    ∀ c, c < s._numCols → s._lastValsPntr c < 2 ^ 32)

/-! ## Byte arithmetic -/

theorem shr_eq_div (x k : Nat) : x >>> k = x / 2 ^ k := Nat.shiftRight_eq_div_pow x k

theorem and127 (x : Nat) : 127 &&& x = x % 2 ^ 7 := by
  rw [Nat.and_comm]; exact Nat.and_pow_two_sub_one_eq_mod x 7

theorem and255 (x : Nat) : x &&& 255 = x % 2 ^ 8 := Nat.and_pow_two_sub_one_eq_mod x 8

theorem head_add (h : Nat) (hh : h < 32) :
    ((224 ||| h) % 2 ^ 8 &&& 223) % 2 ^ 8 = 192 + h ∧
    (((224 ||| h) % 2 ^ 8 &&& 191) % 2 ^ 8 &&& 223) % 2 ^ 8 = 128 + h ∧
    (224 ||| h) % 2 ^ 8 = 224 + h ∧
    ((224 ||| h) % 2 ^ 8 &&& 191) % 2 ^ 8 = 160 + h := by
  revert h; decide

theorem delta2_bytes (m : Nat) (hm : m ≤ 8191) :
    Delta2 true m = [192 + m / 2 ^ 8, m % 2 ^ 8] ∧ Delta2 false m = [128 + m / 2 ^ 8, m % 2 ^ 8] := by
  have hh : m / 2 ^ 8 < 32 := by omega
  have key : ∀ h, h < 32 → (0x80 ||| (1 <<< 6) ||| h = 192 + h ∧ 0x80 ||| (0 <<< 6) ||| h = 128 + h) := by
    decide
  simp only [Delta2, shr_eq_div, and255, if_true, if_false, Bool.false_eq_true]
  exact ⟨by rw [(key _ hh).1], by rw [(key _ hh).2]⟩

theorem delta3_bytes (m : Nat) (hm : m ≤ 2097151) :
    Delta3 true m = [224 + m / 2 ^ 16, m / 2 ^ 8 % 2 ^ 8, m % 2 ^ 8] ∧
    Delta3 false m = [160 + m / 2 ^ 16, m / 2 ^ 8 % 2 ^ 8, m % 2 ^ 8] := by
  have hh : m / 2 ^ 16 < 32 := by omega
  have key : ∀ h, h < 32 →
      (0x80 ||| (1 <<< 6) ||| 0x20 ||| h = 224 + h ∧ 0x80 ||| (0 <<< 6) ||| 0x20 ||| h = 160 + h) := by
    decide
  simp only [Delta3, shr_eq_div, and255, if_true, if_false, Bool.false_eq_true]
  exact ⟨by rw [(key _ hh).1], by rw [(key _ hh).2]⟩

/-! ## Effect of the writing primitives -/

namespace RDES2Comp

@[simp] theorem writeByte_numCols (s : RDES2Comp) (b : Nat) :
    (writeByte s b)._numCols = s._numCols := rfl
@[simp] theorem writeByte_originRefreshInt (s : RDES2Comp) (b : Nat) :
    (writeByte s b)._originRefreshInt = s._originRefreshInt := rfl
@[simp] theorem writeByte_rowsSinceRaw (s : RDES2Comp) (b : Nat) :
    (writeByte s b)._rowsSinceRaw = s._rowsSinceRaw := rfl
@[simp] theorem writeByte_initialized (s : RDES2Comp) (b : Nat) :
    (writeByte s b)._initialized = s._initialized := rfl
@[simp] theorem writeByte_lastVals (s : RDES2Comp) (b : Nat) :
    (writeByte s b)._lastValsPntr = s._lastValsPntr := rfl
@[simp] theorem writeByte_storagePos (s : RDES2Comp) (b : Nat) :
    (writeByte s b)._storagePos = (s._storagePos + 1) % 2 ^ 32 := rfl
@[simp] theorem writeByte_stores (s : RDES2Comp) (b : Nat) :
    (writeByte s b).stores = s.stores ++ [(s._storagePos, b)] := rfl

end RDES2Comp

@[simp] theorem bytesWritten_writeByte (s : RDES2Comp) (b : Nat) :
    bytesWritten (s.writeByte b) = bytesWritten s ++ [b] := by
  simp [bytesWritten]

theorem bytesWritten_writeUint32 (s : RDES2Comp) (v : Nat) :
    bytesWritten (s.writeUint32 v) = bytesWritten s ++ RawValue v := by
  have h1 : (127 &&& (v / 2 ^ 24)) % 2 ^ 8 = v / 2 ^ 24 % 2 ^ 7 := by
    rw [and127]; omega
  simp only [RDES2Comp.writeUint32, bytesWritten_writeByte, shr_eq_div, h1, RawValue,
    List.append_assoc, List.singleton_append, List.cons_append, List.nil_append]

theorem writeUint32_frame (s : RDES2Comp) (v : Nat) :
    (s.writeUint32 v)._numCols = s._numCols ∧
    (s.writeUint32 v)._originRefreshInt = s._originRefreshInt ∧
    (s.writeUint32 v)._rowsSinceRaw = s._rowsSinceRaw ∧
    (s.writeUint32 v)._initialized = s._initialized ∧
    (s.writeUint32 v)._lastValsPntr = s._lastValsPntr := by
  simp [RDES2Comp.writeUint32]

theorem writeUint32_storagePos (s : RDES2Comp) (v : Nat) :
    (s.writeUint32 v)._storagePos = (s._storagePos + 4) % 2 ^ 32 := by
  simp only [RDES2Comp.writeUint32, RDES2Comp.writeByte_storagePos]
  omega

theorem deltaCol_bytes (rowData : List Nat) (s : RDES2Comp) (col : Nat)
    (hl : s._lastValsPntr col < 2 ^ 32) (hc : RDES2Comp.rowAt rowData col < 2 ^ 32) :
    bytesWritten (RDES2Comp.deltaCol rowData s col) =
      bytesWritten s ++ deltaCode (s._lastValsPntr col) (RDES2Comp.rowAt rowData col) := by
  generalize hL : s._lastValsPntr col = last at hl
  generalize hC : RDES2Comp.rowAt rowData col = cur at hc
  by_cases hge : cur ≥ last
  · have hoff : (cur - last) % 4294967296 = cur - last := Nat.mod_eq_of_lt (by omega)
    by_cases h2 : cur - last ≤ 8191
    · have hh := head_add ((cur - last) / 2 ^ 8) (by omega)
      simp only [Nat.reducePow] at hh
      simp [RDES2Comp.deltaCol, deltaCode, hL, hC, hge, hoff, h2, LVL_2_MAX, bytesWritten,
        (delta2_bytes _ h2).1, shr_eq_div, hh.1]
    · by_cases h3 : cur - last ≤ 2097151
      · have hh := head_add ((cur - last) / 2 ^ 16) (by omega)
        simp only [Nat.reducePow] at hh
        simp [RDES2Comp.deltaCol, deltaCode, hL, hC, hge, hoff, h2, h3, LVL_2_MAX, LVL_3_MAX,
          bytesWritten, (delta3_bytes _ h3).1, shr_eq_div, hh.2.2.1]
      · have := bytesWritten_writeUint32 s cur
        simp only [bytesWritten] at this
        simp [RDES2Comp.deltaCol, deltaCode, hL, hC, hge, hoff, h2, h3, LVL_2_MAX, LVL_3_MAX,
          bytesWritten, this]
  · have hoff : (last - cur) % 4294967296 = last - cur := Nat.mod_eq_of_lt (by omega)
    by_cases h2 : last - cur ≤ 8191
    · have hh := head_add ((last - cur) / 2 ^ 8) (by omega)
      simp only [Nat.reducePow] at hh
      simp [RDES2Comp.deltaCol, deltaCode, hL, hC, hge, hoff, h2, LVL_2_MAX, bytesWritten,
        (delta2_bytes _ h2).2, shr_eq_div, hh.2.1]
    · by_cases h3 : last - cur ≤ 2097151
      · have hh := head_add ((last - cur) / 2 ^ 16) (by omega)
        simp only [Nat.reducePow] at hh
        simp [RDES2Comp.deltaCol, deltaCode, hL, hC, hge, hoff, h2, h3, LVL_2_MAX, LVL_3_MAX,
          bytesWritten, (delta3_bytes _ h3).2, shr_eq_div, hh.2.2.2]
      · have := bytesWritten_writeUint32 s cur
        simp only [bytesWritten] at this
        simp [RDES2Comp.deltaCol, deltaCode, hL, hC, hge, hoff, h2, h3, LVL_2_MAX, LVL_3_MAX,
          bytesWritten, this]

theorem deltaCol_frame (rowData : List Nat) (s : RDES2Comp) (col : Nat) :
    (RDES2Comp.deltaCol rowData s col)._numCols = s._numCols ∧
    (RDES2Comp.deltaCol rowData s col)._originRefreshInt = s._originRefreshInt ∧
    (RDES2Comp.deltaCol rowData s col)._rowsSinceRaw = s._rowsSinceRaw ∧
    (RDES2Comp.deltaCol rowData s col)._initialized = s._initialized ∧
    (RDES2Comp.deltaCol rowData s col)._lastValsPntr =
      Function.update s._lastValsPntr col (RDES2Comp.rowAt rowData col) := by
  simp only [RDES2Comp.deltaCol]
  split <;> simp [RDES2Comp.writeUint32]

theorem rawCol_frame (rowData : List Nat) (s : RDES2Comp) (col : Nat) :
    (RDES2Comp.rawCol rowData s col)._numCols = s._numCols ∧
    (RDES2Comp.rawCol rowData s col)._originRefreshInt = s._originRefreshInt ∧
    (RDES2Comp.rawCol rowData s col)._rowsSinceRaw = s._rowsSinceRaw ∧
    (RDES2Comp.rawCol rowData s col)._initialized = s._initialized ∧
    (RDES2Comp.rawCol rowData s col)._lastValsPntr =
      Function.update s._lastValsPntr col (RDES2Comp.rowAt rowData col) := by
  simp [RDES2Comp.rawCol, RDES2Comp.writeUint32]

theorem rawCol_bytes (rowData : List Nat) (s : RDES2Comp) (col : Nat) :
    bytesWritten (RDES2Comp.rawCol rowData s col) =
      bytesWritten s ++ RawValue (RDES2Comp.rowAt rowData col) := by
  simp only [RDES2Comp.rawCol]
  rw [bytesWritten_writeUint32]
  rfl

theorem rawCol_storagePos (rowData : List Nat) (s : RDES2Comp) (col : Nat) :
    (RDES2Comp.rawCol rowData s col)._storagePos = (s._storagePos + 4) % 2 ^ 32 := by
  simp only [RDES2Comp.rawCol]
  rw [writeUint32_storagePos]

theorem deltaCode_length (last cur : Nat) :
    (deltaCode last cur).length = 2 ∨ (deltaCode last cur).length = 3 ∨
      (deltaCode last cur).length = 4 := by
  unfold deltaCode
  simp only []
  by_cases h2 : (if cur ≥ last then cur - last else last - cur) ≤ 8191
  · left; rw [if_pos h2]; rfl
  · by_cases h3 : (if cur ≥ last then cur - last else last - cur) ≤ 2097151
    · right; left; rw [if_neg h2, if_pos h3]; rfl
    · right; right; rw [if_neg h2, if_neg h3]; rfl

theorem deltaCol_storagePos (rowData : List Nat) (s : RDES2Comp) (col : Nat)
    (hl : s._lastValsPntr col < 2 ^ 32) (hc : RDES2Comp.rowAt rowData col < 2 ^ 32) :
    (RDES2Comp.deltaCol rowData s col)._storagePos =
      (s._storagePos +
        (deltaCode (s._lastValsPntr col) (RDES2Comp.rowAt rowData col)).length) % 2 ^ 32 := by
  generalize hL : s._lastValsPntr col = last at hl
  generalize hC : RDES2Comp.rowAt rowData col = cur at hc
  have e4 : ∀ x : Nat, ((((x + 1) % 4294967296 + 1) % 4294967296 + 1) % 4294967296 + 1)
      % 4294967296 = (x + 4) % 4294967296 := by intro x; omega
  have e3 : ∀ x : Nat, (((x + 1) % 4294967296 + 1) % 4294967296 + 1)
      % 4294967296 = (x + 3) % 4294967296 := by intro x; omega
  have e2 : ∀ x : Nat, ((x + 1) % 4294967296 + 1) % 4294967296 = (x + 2) % 4294967296 := by
    intro x; omega
  by_cases hge : cur ≥ last
  · have hoff : (cur - last) % 4294967296 = cur - last := Nat.mod_eq_of_lt (by omega)
    by_cases h2 : cur - last ≤ 8191
    · simp [RDES2Comp.deltaCol, deltaCode, hL, hC, hge, hoff, h2, LVL_2_MAX, Delta2, e2]
    · by_cases h3 : cur - last ≤ 2097151
      · simp [RDES2Comp.deltaCol, deltaCode, hL, hC, hge, hoff, h2, h3, LVL_2_MAX, LVL_3_MAX,
          Delta3, e3]
      · simp [RDES2Comp.deltaCol, deltaCode, hL, hC, hge, hoff, h2, h3, LVL_2_MAX, LVL_3_MAX,
          RawValue, RDES2Comp.writeUint32, e4]
  · have hoff : (last - cur) % 4294967296 = last - cur := Nat.mod_eq_of_lt (by omega)
    by_cases h2 : last - cur ≤ 8191
    · simp [RDES2Comp.deltaCol, deltaCode, hL, hC, hge, hoff, h2, LVL_2_MAX, Delta2, e2]
    · by_cases h3 : last - cur ≤ 2097151
      · simp [RDES2Comp.deltaCol, deltaCode, hL, hC, hge, hoff, h2, h3, LVL_2_MAX, LVL_3_MAX,
          Delta3, e3]
      · simp [RDES2Comp.deltaCol, deltaCode, hL, hC, hge, hoff, h2, h3, LVL_2_MAX, LVL_3_MAX,
          RawValue, RDES2Comp.writeUint32, e4]

/-! ## The two loops of `writeRow` -/

theorem deltaLoopAt_succ (s : RDES2Comp) (rowData : List Nat) (col : Nat) :
    deltaLoopAt s rowData (col + 1) = RDES2Comp.deltaCol rowData (deltaLoopAt s rowData col) col := by
  simp [deltaLoopAt, List.range_succ, List.foldl_append]

theorem rawLoopAt_succ (s : RDES2Comp) (rowData : List Nat) (col : Nat) :
    rawLoopAt s rowData (col + 1) = RDES2Comp.rawCol rowData (rawLoopAt s rowData col) col := by
  simp [rawLoopAt, List.range_succ, List.foldl_append]

theorem deltaLoopAt_frame (s : RDES2Comp) (rowData : List Nat) (n : Nat) :
    (deltaLoopAt s rowData n)._numCols = s._numCols ∧
    (deltaLoopAt s rowData n)._originRefreshInt = s._originRefreshInt ∧
    (deltaLoopAt s rowData n)._rowsSinceRaw = s._rowsSinceRaw ∧
    (deltaLoopAt s rowData n)._initialized = s._initialized ∧
    ∀ c, (deltaLoopAt s rowData n)._lastValsPntr c =
      if c < n then RDES2Comp.rowAt rowData c else s._lastValsPntr c := by
  induction n with
  | zero => simp [deltaLoopAt]
  | succ n ih =>
    obtain ⟨h1, h2, h3, h4, h5⟩ := ih
    obtain ⟨g1, g2, g3, g4, g5⟩ := deltaCol_frame rowData (deltaLoopAt s rowData n) n
    rw [deltaLoopAt_succ]
    refine ⟨g1.trans h1, g2.trans h2, g3.trans h3, g4.trans h4, ?_⟩
    intro c
    rw [g5]
    by_cases hc : c = n
    · subst hc; simp
    · rw [Function.update_noteq hc, h5]
      by_cases hlt : c < n
      · rw [if_pos hlt, if_pos (by omega)]
      · rw [if_neg hlt, if_neg (by omega)]

theorem rawLoopAt_frame (s : RDES2Comp) (rowData : List Nat) (n : Nat) :
    (rawLoopAt s rowData n)._numCols = s._numCols ∧
    (rawLoopAt s rowData n)._originRefreshInt = s._originRefreshInt ∧
    (rawLoopAt s rowData n)._rowsSinceRaw = s._rowsSinceRaw ∧
    (rawLoopAt s rowData n)._initialized = s._initialized ∧
    ∀ c, (rawLoopAt s rowData n)._lastValsPntr c =
      if c < n then RDES2Comp.rowAt rowData c else s._lastValsPntr c := by
  induction n with
  | zero => simp [rawLoopAt]
  | succ n ih =>
    obtain ⟨h1, h2, h3, h4, h5⟩ := ih
    obtain ⟨g1, g2, g3, g4, g5⟩ := rawCol_frame rowData (rawLoopAt s rowData n) n
    rw [rawLoopAt_succ]
    refine ⟨g1.trans h1, g2.trans h2, g3.trans h3, g4.trans h4, ?_⟩
    intro c
    rw [g5]
    by_cases hc : c = n
    · subst hc; simp
    · rw [Function.update_noteq hc, h5]
      by_cases hlt : c < n
      · rw [if_pos hlt, if_pos (by omega)]
      · rw [if_neg hlt, if_neg (by omega)]

theorem deltaLoopAt_lastVal (s : RDES2Comp) (rowData : List Nat) (col : Nat) :
    (deltaLoopAt s rowData col)._lastValsPntr col = s._lastValsPntr col := by
  rw [(deltaLoopAt_frame s rowData col).2.2.2.2 col, if_neg (by omega)]

theorem rawLoopAt_bytes (s : RDES2Comp) (rowData : List Nat) (n : Nat) :
    bytesWritten (rawLoopAt s rowData n) =
      bytesWritten s ++ (List.range n).flatMap (fun c => RawValue (RDES2Comp.rowAt rowData c)) := by
  induction n with
  | zero => simp [rawLoopAt]
  | succ n ih =>
    rw [rawLoopAt_succ, rawCol_bytes, ih, List.range_succ, List.flatMap_append]
    simp

theorem rawLoopAt_storagePos (s : RDES2Comp) (rowData : List Nat) (n : Nat) :
    (rawLoopAt s rowData n)._storagePos % 2 ^ 32 = (s._storagePos + 4 * n) % 2 ^ 32 := by
  induction n with
  | zero => simp [rawLoopAt]
  | succ n ih =>
    rw [rawLoopAt_succ, rawCol_storagePos]
    omega

theorem deltaLoopAt_bytes (s : RDES2Comp) (rowData : List Nat) (n : Nat)
    (hl : ∀ c, c < n → s._lastValsPntr c < 2 ^ 32)
    (hc : ∀ c, c < n → RDES2Comp.rowAt rowData c < 2 ^ 32) :
    bytesWritten (deltaLoopAt s rowData n) =
      bytesWritten s ++
        (List.range n).flatMap (fun c => deltaCode (s._lastValsPntr c) (RDES2Comp.rowAt rowData c)) := by
  induction n with
  | zero => simp [deltaLoopAt]
  | succ n ih =>
    have hl1 : (deltaLoopAt s rowData n)._lastValsPntr n < 2 ^ 32 := by
      rw [deltaLoopAt_lastVal]; exact hl n (by omega)
    rw [deltaLoopAt_succ, deltaCol_bytes _ _ _ hl1 (hc n (by omega)),
      ih (fun c h => hl c (by omega)) (fun c h => hc c (by omega)), List.range_succ,
      List.flatMap_append, deltaLoopAt_lastVal]
    simp

theorem writeRow_keyframe (s : RDES2Comp) (rowData : List Nat) (h : keyframeDue s) :
    s.writeRow rowData =
      ({ rawLoopAt s rowData s._numCols with _rowsSinceRaw := 0, _initialized := true }, true) := by
  unfold keyframeDue at h
  have : (!s._initialized || (decide (s._originRefreshInt > 0) &&
      decide (s._rowsSinceRaw ≥ s._originRefreshInt))) = true := by
    rcases h with h | ⟨h1, h2⟩
    · simp [h]
    · simp [h1, h2]
  simp only [RDES2Comp.writeRow, this, if_true, RDES2Comp.forCols, rawLoopAt]

theorem writeRow_delta (s : RDES2Comp) (rowData : List Nat) (h : ¬ keyframeDue s) :
    s.writeRow rowData = (deltaLoopAt s rowData s._numCols, true) := by
  unfold keyframeDue at h
  have : (!s._initialized || (decide (s._originRefreshInt > 0) &&
      decide (s._rowsSinceRaw ≥ s._originRefreshInt))) = false := by
    rcases hi : s._initialized with _ | _
    · exact absurd (Or.inl hi) h
    · have : ¬ (0 < s._originRefreshInt ∧ s._originRefreshInt ≤ s._rowsSinceRaw) :=
        fun hh => h (Or.inr hh)
      simp only [Bool.not_true, Bool.false_or, Bool.and_eq_false_imp, decide_eq_true_eq,
        decide_eq_false_iff_not]
      intro h1 h2
      exact this ⟨h1, h2⟩
  simp only [RDES2Comp.writeRow, this, RDES2Comp.forCols, deltaLoopAt]
  simp

/-! ## Decoding one code -/

theorem head_bits (h : Nat) (hh : h < 32) :
    ((128 + h).testBit 7 = true ∧ (128 + h).testBit 6 = false ∧ (128 + h).testBit 5 = false ∧
      (128 + h) % 2 ^ 5 = h) ∧
    ((192 + h).testBit 7 = true ∧ (192 + h).testBit 6 = true ∧ (192 + h).testBit 5 = false ∧
      (192 + h) % 2 ^ 5 = h) ∧
    ((160 + h).testBit 7 = true ∧ (160 + h).testBit 6 = false ∧ (160 + h).testBit 5 = true ∧
      (160 + h) % 2 ^ 5 = h) ∧
    ((224 + h).testBit 7 = true ∧ (224 + h).testBit 6 = true ∧ (224 + h).testBit 5 = true ∧
      (224 + h) % 2 ^ 5 = h) := by
  revert h; decide

theorem decodeCode_raw (prev : Option Nat) (v : Nat) (rest : List Nat) (hv : v < 2 ^ 31) :
    decodeCode prev (RawValue v ++ rest) = some (v, rest) := by
  have hb : (v / 2 ^ 24 % 2 ^ 7).testBit 7 = false :=
    Nat.testBit_lt_two_pow (Nat.mod_lt _ (by norm_num))
  have hsum : v / 2 ^ 24 % 2 ^ 7 * 2 ^ 24 + v / 2 ^ 16 % 2 ^ 8 * 2 ^ 16 + v / 2 ^ 8 % 2 ^ 8 * 2 ^ 8
      + v % 2 ^ 8 = v := by omega
  simp only [RawValue, List.cons_append, List.nil_append, decodeCode, hb, if_true, hsum]

theorem decodeCode_raw_gen (prev : Option Nat) (v : Nat) (rest : List Nat) :
    decodeCode prev (RawValue v ++ rest) = some (v % 2 ^ 31, rest) := by
  have hb : (v / 2 ^ 24 % 2 ^ 7).testBit 7 = false :=
    Nat.testBit_lt_two_pow (Nat.mod_lt _ (by norm_num))
  have hsum : v / 2 ^ 24 % 2 ^ 7 * 2 ^ 24 + v / 2 ^ 16 % 2 ^ 8 * 2 ^ 16 + v / 2 ^ 8 % 2 ^ 8 * 2 ^ 8
      + v % 2 ^ 8 = v % 2 ^ 31 := by omega
  simp only [RawValue, List.cons_append, List.nil_append, decodeCode, hb, if_true, hsum]

theorem decodeCode_delta2 (last cur : Nat) (rest : List Nat) (hge : cur ≥ last)
    (hm : cur - last ≤ 8191) :
    decodeCode (some last) (Delta2 true (cur - last) ++ rest) = some (cur, rest) := by
  obtain ⟨-, ⟨b7, b6, b5, bm⟩, -, -⟩ := head_bits ((cur - last) / 2 ^ 8) (by omega)
  rw [(delta2_bytes _ hm).1]
  simp only [List.cons_append, List.nil_append, decodeCode, b7, b6, b5, bm, if_true,
    Bool.true_eq_false, if_false]
  congr 2
  omega

theorem decodeCode_delta2_sub (last cur : Nat) (rest : List Nat) (hlt : cur < last)
    (hm : last - cur ≤ 8191) :
    decodeCode (some last) (Delta2 false (last - cur) ++ rest) = some (cur, rest) := by
  obtain ⟨⟨b7, b6, b5, bm⟩, -, -, -⟩ := head_bits ((last - cur) / 2 ^ 8) (by omega)
  rw [(delta2_bytes _ hm).2]
  simp only [List.cons_append, List.nil_append, decodeCode, b7, b6, b5, bm, if_true,
    Bool.true_eq_false, if_false, Bool.false_eq_true]
  congr 2
  omega

theorem decodeCode_delta3 (last cur : Nat) (rest : List Nat) (hge : cur ≥ last)
    (hm : cur - last ≤ 2097151) :
    decodeCode (some last) (Delta3 true (cur - last) ++ rest) = some (cur, rest) := by
  obtain ⟨-, -, -, ⟨b7, b6, b5, bm⟩⟩ := head_bits ((cur - last) / 2 ^ 16) (by omega)
  rw [(delta3_bytes _ hm).1]
  simp only [List.cons_append, List.nil_append, decodeCode, b7, b6, b5, bm, if_true,
    Bool.true_eq_false, if_false]
  congr 2
  omega

theorem decodeCode_delta3_sub (last cur : Nat) (rest : List Nat) (hlt : cur < last)
    (hm : last - cur ≤ 2097151) :
    decodeCode (some last) (Delta3 false (last - cur) ++ rest) = some (cur, rest) := by
  obtain ⟨-, -, ⟨b7, b6, b5, bm⟩, -⟩ := head_bits ((last - cur) / 2 ^ 16) (by omega)
  rw [(delta3_bytes _ hm).2]
  simp only [List.cons_append, List.nil_append, decodeCode, b7, b6, b5, bm, if_true,
    Bool.true_eq_false, if_false, Bool.false_eq_true]
  congr 2
  omega

theorem decodeCode_deltaCode (last cur : Nat) (rest : List Nat) (hv : cur < 2 ^ 31) :
    decodeCode (some last) (deltaCode last cur ++ rest) = some (cur, rest) := by
  unfold deltaCode
  simp only []
  by_cases hge : cur ≥ last
  · simp only [hge, if_true, decide_True]
    by_cases h2 : cur - last ≤ 8191
    · rw [if_pos h2]; exact decodeCode_delta2 last cur rest hge h2
    · rw [if_neg h2]
      by_cases h3 : cur - last ≤ 2097151
      · rw [if_pos h3]; exact decodeCode_delta3 last cur rest hge h3
      · rw [if_neg h3]; exact decodeCode_raw _ cur rest hv
  · simp only [hge, if_false, decide_False]
    by_cases h2 : last - cur ≤ 8191
    · rw [if_pos h2]; exact decodeCode_delta2_sub last cur rest (by omega) h2
    · rw [if_neg h2]
      by_cases h3 : last - cur ≤ 2097151
      · rw [if_pos h3]; exact decodeCode_delta3_sub last cur rest (by omega) h3
      · rw [if_neg h3]; exact decodeCode_raw _ cur rest hv

/-! ## Decoding one row -/

theorem decodeRow_flatMap (P : Nat → Option Nat) (code : Nat → List Nat) (val : Nat → Nat)
    (cs : List Nat)
    (h : ∀ c ∈ cs, ∀ rest, decodeCode (P c) (code c ++ rest) = some (val c, rest))
    (rest : List Nat) :
    decodeRow (cs.map P) (cs.flatMap code ++ rest) = some (cs.map val, rest) := by
  induction cs with
  | nil => simp [decodeRow]
  | cons c cs ih =>
    have hc := h c (List.mem_cons_self c cs) (cs.flatMap code ++ rest)
    have ih1 := ih (fun d hd => h d (List.mem_cons_of_mem c hd))
    simp only [List.map_cons, List.flatMap_cons, List.append_assoc, decodeRow, hc, ih1]

theorem flatMap_length_ge (code : Nat → List Nat) (cs : List Nat)
    (h : ∀ c ∈ cs, 2 ≤ (code c).length) : 2 * cs.length ≤ (cs.flatMap code).length := by
  induction cs with
  | nil => simp
  | cons c cs ih =>
    have hc := h c (List.mem_cons_self c cs)
    have ih1 := ih (fun d hd => h d (List.mem_cons_of_mem c hd))
    simp only [List.flatMap_cons, List.length_append, List.length_cons]
    omega

theorem map_getD_range {α : Type} (l : List α) (d : α) :
    (List.range l.length).map (fun c => l.getD c d) = l := by
  apply List.ext_getElem
  · simp
  · intro n h1 h2
    simp [List.getElem?_eq_getElem h2]

theorem rowAt_lt (rowData : List Nat) (b : Nat) (hb : 0 < b) (h : ∀ v ∈ rowData, v < b) (c : Nat) :
    RDES2Comp.rowAt rowData c < b := by
  unfold RDES2Comp.rowAt
  by_cases hc : c < rowData.length
  · rw [List.getD_eq_getElem rowData 0 hc]
    exact h _ (List.getElem_mem hc)
  · rw [List.getD_eq_default _ _ (by omega)]
    exact hb


theorem map_some_eq (rowData : List Nat) (n : Nat) (hlen : rowData.length = n) (L : Nat → Nat)
    (hL : ∀ c, c < n → L c = RDES2Comp.rowAt rowData c) :
    rowData.map some = (List.range n).map (fun c => some (L c)) := by
  subst hlen
  conv_lhs => rw [← map_getD_range rowData 0]
  rw [List.map_map]
  apply List.map_congr_left
  intro c hc
  simp only [List.mem_range] at hc
  simp [hL c hc, RDES2Comp.rowAt]

theorem row_eq_map_rowAt (rowData : List Nat) (n : Nat) (hlen : rowData.length = n) :
    (List.range n).map (RDES2Comp.rowAt rowData) = rowData := by
  subst hlen
  exact map_getD_range rowData 0

theorem not_due_initialized (s : RDES2Comp) (h : ¬ keyframeDue s) : s._initialized = true := by
  unfold keyframeDue at h
  rcases hi : s._initialized with _ | _
  · exact absurd (Or.inl hi) h
  · rfl

theorem writeRow_decodes (s : RDES2Comp) (rowData : List Nat) (prevs : List (Option Nat))
    (hlen : rowData.length = s._numCols) (hval : ∀ v ∈ rowData, v < 2 ^ 31)
    (hs : InSync s prevs) :
    ∃ out, bytesWritten (s.writeRow rowData).1 = bytesWritten s ++ out ∧
      (∀ rest, decodeRow prevs (out ++ rest) = some (rowData, rest)) ∧
      2 * s._numCols ≤ out.length ∧
      InSync (s.writeRow rowData).1 (rowData.map some) := by
  have hcur31 : ∀ c, RDES2Comp.rowAt rowData c < 2 ^ 31 :=
    rowAt_lt rowData _ (by norm_num) hval
  have hcur32 : ∀ c, RDES2Comp.rowAt rowData c < 2 ^ 32 := fun c =>
    lt_trans (hcur31 c) (by norm_num)
  by_cases hk : keyframeDue s
  · rw [writeRow_keyframe s rowData hk]
    obtain ⟨f1, -, -, -, f5⟩ := rawLoopAt_frame s rowData s._numCols
    refine ⟨(List.range s._numCols).flatMap (fun c => RawValue (RDES2Comp.rowAt rowData c)),
      rawLoopAt_bytes s rowData s._numCols, ?_, ?_, ?_⟩
    · intro rest
      have hp : prevs = (List.range s._numCols).map (fun c => prevs.getD c none) := by
        rw [← hs.1, map_getD_range]
      have := decodeRow_flatMap (fun c => prevs.getD c none)
        (fun c => RawValue (RDES2Comp.rowAt rowData c)) (RDES2Comp.rowAt rowData)
        (List.range s._numCols) (fun c _ r => decodeCode_raw _ _ r (hcur31 c)) rest
      rw [← hp, row_eq_map_rowAt rowData _ hlen] at this
      exact this
    · have := flatMap_length_ge (fun c => RawValue (RDES2Comp.rowAt rowData c))
        (List.range s._numCols) (fun c _ => by simp [RawValue])
      simpa using this
    · refine ⟨by simp [hlen, f1], fun _ => ⟨?_, ?_⟩⟩
      · show rowData.map some = (List.range (rawLoopAt s rowData s._numCols)._numCols).map
          (fun c => some ((rawLoopAt s rowData s._numCols)._lastValsPntr c))
        rw [f1]
        exact map_some_eq rowData _ hlen _ (fun c hc => by rw [f5 c, if_pos hc])
      · intro c hc
        show (rawLoopAt s rowData s._numCols)._lastValsPntr c < 2 ^ 32
        rw [f5 c]
        split
        · exact hcur32 c
        · exact absurd (show c < s._numCols from f1 ▸ hc) ‹_›
  · rw [writeRow_delta s rowData hk]
    obtain ⟨f1, -, -, f4, f5⟩ := deltaLoopAt_frame s rowData s._numCols
    have hi := not_due_initialized s hk
    obtain ⟨hp, hb⟩ := hs.2 hi
    refine ⟨(List.range s._numCols).flatMap
        (fun c => deltaCode (s._lastValsPntr c) (RDES2Comp.rowAt rowData c)),
      deltaLoopAt_bytes s rowData s._numCols hb (fun c _ => hcur32 c), ?_, ?_, ?_⟩
    · intro rest
      have := decodeRow_flatMap (fun c => some (s._lastValsPntr c))
        (fun c => deltaCode (s._lastValsPntr c) (RDES2Comp.rowAt rowData c))
        (RDES2Comp.rowAt rowData)
        (List.range s._numCols) (fun c _ r => decodeCode_deltaCode _ _ r (hcur31 c)) rest
      rw [← hp, row_eq_map_rowAt rowData _ hlen] at this
      exact this
    · have := flatMap_length_ge
        (fun c => deltaCode (s._lastValsPntr c) (RDES2Comp.rowAt rowData c))
        (List.range s._numCols) (fun c _ => by
          rcases deltaCode_length (s._lastValsPntr c) (RDES2Comp.rowAt rowData c) with h | h | h
            <;> simp only [h] <;> omega)
      simpa using this
    · refine ⟨by simp [hlen, f1], fun _ => ⟨?_, ?_⟩⟩
      · show rowData.map some = (List.range (deltaLoopAt s rowData s._numCols)._numCols).map
          (fun c => some ((deltaLoopAt s rowData s._numCols)._lastValsPntr c))
        rw [f1]
        exact map_some_eq rowData _ hlen _ (fun c hc => by rw [f5 c, if_pos hc])
      · intro c hc
        show (deltaLoopAt s rowData s._numCols)._lastValsPntr c < 2 ^ 32
        rw [f5 c]
        split
        · exact hcur32 c
        · exact absurd (show c < s._numCols from f1 ▸ hc) ‹_›

/-! ## Decoding a whole stream -/

theorem decodeRows_nil (fuel : Nat) (prevs : List (Option Nat)) :
    decodeRows fuel prevs [] = some [] := by
  cases fuel <;> rfl

theorem decodeRows_step (fuel : Nat) (prevs : List (Option Nat)) (bytes rest : List Nat)
    (row : List Nat) (rows : List (List Nat)) (hne : bytes ≠ [])
    (h1 : decodeRow prevs bytes = some (row, rest))
    (h2 : decodeRows fuel (row.map some) rest = some rows) :
    decodeRows (fuel + 1) prevs bytes = some (row :: rows) := by
  cases bytes with
  | nil => exact absurd rfl hne
  | cons b bs => simp only [decodeRows, h1, h2]

theorem writeRows_decodes (rows : List (List Nat)) :
    ∀ (s : RDES2Comp) (prevs : List (Option Nat)), 1 ≤ s._numCols →
      (∀ r ∈ rows, r.length = s._numCols) → (∀ r ∈ rows, ∀ v ∈ r, v < 2 ^ 31) →
      InSync s prevs →
      ∃ out, bytesWritten (writeRows s rows) = bytesWritten s ++ out ∧
        rows.length ≤ out.length ∧
        ∀ fuel, rows.length ≤ fuel → decodeRows fuel prevs out = some rows := by
  induction rows with
  | nil =>
    intro s prevs _ _ _ _
    exact ⟨[], by simp [writeRows], by simp, fun fuel _ => decodeRows_nil fuel prevs⟩
  | cons r rs ih =>
    intro s prevs hn hlen hval hs
    obtain ⟨out1, hb1, hd1, hl1, hs1⟩ :=
      writeRow_decodes s r prevs (hlen r (List.mem_cons_self r rs))
        (hval r (List.mem_cons_self r rs)) hs
    have hnum : (s.writeRow r).1._numCols = s._numCols := by
      have := hs1.1
      rw [List.length_map, hlen r (List.mem_cons_self r rs)] at this
      exact this.symm
    obtain ⟨out2, hb2, hl2, hd2⟩ := ih (s.writeRow r).1 (r.map some) (by omega)
      (fun q hq => by rw [hnum]; exact hlen q (List.mem_cons_of_mem r hq))
      (fun q hq => hval q (List.mem_cons_of_mem r hq)) hs1
    refine ⟨out1 ++ out2, ?_, ?_, ?_⟩
    · show bytesWritten (writeRows (s.writeRow r).1 rs) = _
      rw [hb2, hb1, List.append_assoc]
    · simp only [List.length_cons, List.length_append]
      omega
    · intro fuel hf
      obtain ⟨f, rfl⟩ : ∃ f, fuel = f + 1 := ⟨fuel - 1, by simp at hf; omega⟩
      have hne : out1 ++ out2 ≠ [] := by
        intro h
        have := congrArg List.length h
        rw [List.length_append, List.length_nil] at this
        omega
      exact decodeRows_step f prevs (out1 ++ out2) out2 r rs hne (hd1 out2)
        (hd2 f (by simp at hf; omega))

/-! ## The cursor counts the stores -/

theorem cursorCounts_new (numCols originRefreshInt : Nat) (storage heap : Nat → Nat) :
    CursorCounts (RDES2Comp.new numCols originRefreshInt storage heap) := by
  simp [CursorCounts, RDES2Comp.new]

theorem cursorCounts_writeByte (s : RDES2Comp) (b : Nat) (h : CursorCounts s) :
    CursorCounts (s.writeByte b) := by
  unfold CursorCounts at *
  simp only [RDES2Comp.writeByte_storagePos, RDES2Comp.writeByte_stores, List.length_append,
    List.length_singleton, h]
  omega

theorem cursorCounts_writeUint32 (s : RDES2Comp) (v : Nat) (h : CursorCounts s) :
    CursorCounts (s.writeUint32 v) := by
  unfold RDES2Comp.writeUint32
  exact cursorCounts_writeByte _ _ (cursorCounts_writeByte _ _ (cursorCounts_writeByte _ _
    (cursorCounts_writeByte _ _ h)))

theorem cursorCounts_setLast (s : RDES2Comp) (f : Nat → Nat) (h : CursorCounts s) :
    CursorCounts { s with _lastValsPntr := f } := by
  unfold CursorCounts at *
  exact h

theorem deltaCol_cases (rowData : List Nat) (s : RDES2Comp) (col : Nat) :
    ∃ s1, RDES2Comp.deltaCol rowData s col =
        { s1 with _lastValsPntr :=
            Function.update s1._lastValsPntr col (RDES2Comp.rowAt rowData col) } ∧
      ((∃ b1 b2, s1 = (s.writeByte b1).writeByte b2) ∨
       (∃ b1 b2 b3, s1 = ((s.writeByte b1).writeByte b2).writeByte b3) ∨
       s1 = s.writeUint32 (RDES2Comp.rowAt rowData col)) := by
  unfold RDES2Comp.deltaCol
  refine ⟨_, rfl, ?_⟩
  split
  · exact Or.inl ⟨_, _, rfl⟩
  · exact Or.inr (Or.inl ⟨_, _, _, rfl⟩)
  · exact Or.inr (Or.inr rfl)

theorem cursorCounts_rawCol (rowData : List Nat) (s : RDES2Comp) (col : Nat)
    (h : CursorCounts s) : CursorCounts (RDES2Comp.rawCol rowData s col) := by
  unfold RDES2Comp.rawCol
  exact cursorCounts_writeUint32 _ _ (cursorCounts_setLast _ _ h)

theorem cursorCounts_deltaCol (rowData : List Nat) (s : RDES2Comp) (col : Nat)
    (h : CursorCounts s) : CursorCounts (RDES2Comp.deltaCol rowData s col) := by
  obtain ⟨s1, e, h1 | h1 | h1⟩ := deltaCol_cases rowData s col
  · obtain ⟨b1, b2, rfl⟩ := h1
    rw [e]
    exact cursorCounts_setLast _ _ (cursorCounts_writeByte _ _ (cursorCounts_writeByte _ _ h))
  · obtain ⟨b1, b2, b3, rfl⟩ := h1
    rw [e]
    exact cursorCounts_setLast _ _ (cursorCounts_writeByte _ _ (cursorCounts_writeByte _ _
      (cursorCounts_writeByte _ _ h)))
  · subst h1
    rw [e]
    exact cursorCounts_setLast _ _ (cursorCounts_writeUint32 _ _ h)

theorem cursorCounts_rawLoopAt (s : RDES2Comp) (rowData : List Nat) (n : Nat)
    (h : CursorCounts s) : CursorCounts (rawLoopAt s rowData n) := by
  induction n with
  | zero => exact h
  | succ n ih => rw [rawLoopAt_succ]; exact cursorCounts_rawCol _ _ _ ih

theorem cursorCounts_deltaLoopAt (s : RDES2Comp) (rowData : List Nat) (n : Nat)
    (h : CursorCounts s) : CursorCounts (deltaLoopAt s rowData n) := by
  induction n with
  | zero => exact h
  | succ n ih => rw [deltaLoopAt_succ]; exact cursorCounts_deltaCol _ _ _ ih

theorem cursorCounts_writeRow (s : RDES2Comp) (rowData : List Nat) (h : CursorCounts s) :
    CursorCounts (s.writeRow rowData).1 := by
  by_cases hk : keyframeDue s
  · rw [writeRow_keyframe s rowData hk]
    exact cursorCounts_rawLoopAt s rowData _ h
  · rw [writeRow_delta s rowData hk]
    exact cursorCounts_deltaLoopAt s rowData _ h

theorem cursorCounts_writeRows (rows : List (List Nat)) :
    ∀ s : RDES2Comp, CursorCounts s → CursorCounts (writeRows s rows) := by
  induction rows with
  | nil => intro s h; exact h
  | cons r rs ih => intro s h; exact ih _ (cursorCounts_writeRow s r h)

theorem getSize_eq_length (s : RDES2Comp) (h : CursorCounts s) :
    s.getSize = (bytesWritten s).length % 2 ^ 32 := by
  unfold CursorCounts at h
  simp [RDES2Comp.getSize, bytesWritten, h]

/-! ## One call of `writeRow` -/

theorem writeRow_bytes_keyframe (s : RDES2Comp) (rowData : List Nat) (hk : keyframeDue s) :
    bytesWritten (s.writeRow rowData).1 =
      bytesWritten s ++
        (List.range s._numCols).flatMap (fun c => RawValue (RDES2Comp.rowAt rowData c)) := by
  rw [writeRow_keyframe s rowData hk]
  exact rawLoopAt_bytes s rowData s._numCols

theorem writeRow_bytes_delta (s : RDES2Comp) (rowData : List Nat) (hk : ¬ keyframeDue s)
    (hl : ∀ c, c < s._numCols → s._lastValsPntr c < 2 ^ 32)
    (hc : ∀ c, c < s._numCols → RDES2Comp.rowAt rowData c < 2 ^ 32) :
    bytesWritten (s.writeRow rowData).1 =
      bytesWritten s ++ (List.range s._numCols).flatMap
        (fun c => deltaCode (s._lastValsPntr c) (RDES2Comp.rowAt rowData c)) := by
  rw [writeRow_delta s rowData hk]
  exact deltaLoopAt_bytes s rowData s._numCols hl hc

theorem writeRow_state (s : RDES2Comp) (rowData : List Nat) :
    (s.writeRow rowData).1._numCols = s._numCols ∧
    (s.writeRow rowData).1._originRefreshInt = s._originRefreshInt ∧
    (s.writeRow rowData).1._rowsSinceRaw = (if keyframeDue s then 0 else s._rowsSinceRaw) ∧
    (s.writeRow rowData).1._initialized = true ∧
    ∀ c, (s.writeRow rowData).1._lastValsPntr c =
      if c < s._numCols then RDES2Comp.rowAt rowData c else s._lastValsPntr c := by
  by_cases hk : keyframeDue s
  · rw [writeRow_keyframe s rowData hk, if_pos hk]
    obtain ⟨f1, f2, -, -, f5⟩ := rawLoopAt_frame s rowData s._numCols
    exact ⟨f1, f2, rfl, rfl, f5⟩
  · rw [writeRow_delta s rowData hk, if_neg hk]
    obtain ⟨f1, f2, f3, f4, f5⟩ := deltaLoopAt_frame s rowData s._numCols
    exact ⟨f1, f2, f3, f4.trans (not_due_initialized s hk), f5⟩

theorem flatMap_length_const (code : Nat → List Nat) (k : Nat) (cs : List Nat)
    (h : ∀ c ∈ cs, (code c).length = k) : (cs.flatMap code).length = k * cs.length := by
  induction cs with
  | nil => simp
  | cons c cs ih =>
    have hc := h c (List.mem_cons_self c cs)
    have ih1 := ih (fun d hd => h d (List.mem_cons_of_mem c hd))
    simp only [List.flatMap_cons, List.length_append, List.length_cons, hc, ih1]
    ring

theorem deltaLoopAt_step_bytes (s : RDES2Comp) (rowData : List Nat) (col : Nat)
    (hl : s._lastValsPntr col < 2 ^ 32) (hc : RDES2Comp.rowAt rowData col < 2 ^ 32) :
    bytesWritten (deltaLoopAt s rowData (col + 1)) =
      bytesWritten (deltaLoopAt s rowData col) ++
        deltaCode (s._lastValsPntr col) (RDES2Comp.rowAt rowData col) ∧
    (deltaLoopAt s rowData (col + 1)).getSize =
      ((deltaLoopAt s rowData col).getSize +
        (deltaCode (s._lastValsPntr col) (RDES2Comp.rowAt rowData col)).length) % 2 ^ 32 := by
  have hl1 : (deltaLoopAt s rowData col)._lastValsPntr col < 2 ^ 32 := by
    rw [deltaLoopAt_lastVal]; exact hl
  constructor
  · rw [deltaLoopAt_succ, deltaCol_bytes _ _ _ hl1 hc, deltaLoopAt_lastVal]
  · unfold RDES2Comp.getSize
    rw [deltaLoopAt_succ, deltaCol_storagePos _ _ _ hl1 hc, deltaLoopAt_lastVal]

theorem range_split (n c : Nat) (h : c ≤ n) :
    List.range n = List.range c ++ List.range' c (n - c) := by
  have := List.range'_append_1 0 c (n - c)
  rw [Nat.zero_add] at this
  rw [List.range_eq_range', List.range_eq_range', this]
  congr 1
  omega

theorem deltaLoopAt_rest (s : RDES2Comp) (rowData : List Nat) (n c : Nat) (h : c ≤ n) :
    deltaLoopAt s rowData n =
      (List.range' c (n - c)).foldl (RDES2Comp.deltaCol rowData) (deltaLoopAt s rowData c) := by
  unfold deltaLoopAt
  rw [range_split n c h, List.foldl_append]

theorem deltaCode_length_four (last cur : Nat) :
    (deltaCode last cur).length = 4 ↔ (last + 2097151 < cur ∨ cur + 2097151 < last) := by
  unfold deltaCode
  simp only []
  by_cases h2 : (if cur ≥ last then cur - last else last - cur) ≤ 8191
  · rw [if_pos h2]
    constructor
    · intro h; exact absurd h (by simp [Delta2])
    · intro h; split at h2 <;> omega
  · rw [if_neg h2]
    by_cases h3 : (if cur ≥ last then cur - last else last - cur) ≤ 2097151
    · rw [if_pos h3]
      constructor
      · intro h; exact absurd h (by simp [Delta3])
      · intro h; split at h3 <;> omega
    · rw [if_neg h3]
      constructor
      · intro _; split at h3 <;> omega
      · intro _; rfl

theorem writeRows_nil (s : RDES2Comp) : writeRows s [] = s := by
  unfold writeRows
  rw [List.foldl_nil]

theorem writeRows_cons (s : RDES2Comp) (r : List Nat) (rs : List (List Nat)) :
    writeRows s (r :: rs) = writeRows (s.writeRow r).1 rs := by
  unfold writeRows
  rw [List.foldl_cons]

theorem writeRows_reach (rows : List (List Nat)) :
    ∀ s : RDES2Comp, s._rowsSinceRaw = 0 →
      (s._initialized = true → ∀ c, c < s._numCols → s._lastValsPntr c < 2 ^ 32) →
      (∀ r ∈ rows, ∀ v ∈ r, v < 2 ^ 32) →
      (writeRows s rows)._rowsSinceRaw = 0 ∧
      (writeRows s rows)._numCols = s._numCols ∧
      (writeRows s rows)._originRefreshInt = s._originRefreshInt ∧
      ((writeRows s rows)._initialized = true →
        ∀ c, c < s._numCols → (writeRows s rows)._lastValsPntr c < 2 ^ 32) ∧
      (rows ≠ [] → (writeRows s rows)._initialized = true) := by
  induction rows with
  | nil =>
    intro s h0 hl _
    exact ⟨h0, rfl, rfl, hl, fun h => absurd rfl h⟩
  | cons r rs ih =>
    intro s h0 hl h32
    obtain ⟨f1, f2, f3, f4, f5⟩ := writeRow_state s r
    have hr : ∀ c, RDES2Comp.rowAt r c < 2 ^ 32 :=
      rowAt_lt r _ (by norm_num) (h32 r (List.mem_cons_self r rs))
    have g0 : (s.writeRow r).1._rowsSinceRaw = 0 := by
      rw [f3]; split
      · rfl
      · exact h0
    obtain ⟨i1, i2, i3, i4, -⟩ := ih (s.writeRow r).1 g0
      (fun _ c hc => by
        rw [f5 c, if_pos (f1 ▸ hc)]
        exact hr c)
      (fun q hq => h32 q (List.mem_cons_of_mem r hq))
    rw [writeRows_cons]
    refine ⟨i1, i2.trans f1, i3.trans f2, fun h c hc => i4 h c (f1.symm ▸ hc), fun _ => ?_⟩
    by_cases hrs : rs = []
    · subst hrs; exact f4
    · exact (ih (s.writeRow r).1 g0
        (fun _ c hc => by
          rw [f5 c, if_pos (f1 ▸ hc)]
          exact hr c)
        (fun q hq => h32 q (List.mem_cons_of_mem r hq))).2.2.2.2 hrs

theorem not_due_preserved (s : RDES2Comp) (rowData : List Nat) (hk : ¬ keyframeDue s) :
    ¬ keyframeDue (s.writeRow rowData).1 := by
  obtain ⟨-, f2, f3, f4, -⟩ := writeRow_state s rowData
  rw [if_neg hk] at f3
  unfold keyframeDue at *
  rw [f2, f3, f4]
  intro h
  rcases h with h | h
  · exact absurd h (by decide)
  · exact hk (Or.inr h)

theorem two_col_delta (s : RDES2Comp) (a b x y : Nat) (hn : s._numCols = 2)
    (hk : ¬ keyframeDue s) (h0 : s._lastValsPntr 0 = a) (h1 : s._lastValsPntr 1 = b)
    (ha : a < 2 ^ 32) (hb : b < 2 ^ 32) (hx : x < 2 ^ 32) (hy : y < 2 ^ 32) :
    bytesWritten (s.writeRow [x, y]).1 = bytesWritten s ++ deltaCode a x ++ deltaCode b y ∧
    (s.writeRow [x, y]).1._numCols = 2 ∧ ¬ keyframeDue (s.writeRow [x, y]).1 ∧
    (s.writeRow [x, y]).1._lastValsPntr 0 = x ∧ (s.writeRow [x, y]).1._lastValsPntr 1 = y := by
  obtain ⟨f1, -, -, -, f5⟩ := writeRow_state s [x, y]
  have hl : ∀ c, c < s._numCols → s._lastValsPntr c < 2 ^ 32 := by
    intro c hc
    rw [hn] at hc
    interval_cases c
    · rw [h0]; exact ha
    · rw [h1]; exact hb
  have hr : ∀ c, c < s._numCols → RDES2Comp.rowAt [x, y] c < 2 ^ 32 := by
    intro c hc
    rw [hn] at hc
    interval_cases c
    · exact hx
    · exact hy
  refine ⟨?_, f1.trans hn, not_due_preserved s _ hk, ?_, ?_⟩
  · rw [writeRow_bytes_delta s [x, y] hk hl hr, hn]
    simp [List.range_succ, h0, h1, RDES2Comp.rowAt]
  · rw [f5 0, hn]; rfl
  · rw [f5 1, hn]; rfl

/-! ## The history variable and the buffer -/

theorem writeRow_preserves (P : RDES2Comp → Prop)
    (hB : ∀ s b, P s → P (s.writeByte b))
    (hL : ∀ s f, P s → P { s with _lastValsPntr := f })
    (hF : ∀ s, P s → P { s with _rowsSinceRaw := 0, _initialized := true })
    (s : RDES2Comp) (rowData : List Nat) (h : P s) : P (s.writeRow rowData).1 := by
  have hU : ∀ s v, P s → P (s.writeUint32 v) := by
    intro s v h
    unfold RDES2Comp.writeUint32
    exact hB _ _ (hB _ _ (hB _ _ (hB _ _ h)))
  by_cases hk : keyframeDue s
  · rw [writeRow_keyframe s rowData hk]
    apply hF
    generalize s._numCols = n
    induction n with
    | zero => exact h
    | succ n ih =>
      rw [rawLoopAt_succ]
      unfold RDES2Comp.rawCol
      exact hU _ _ (hL _ _ ih)
  · rw [writeRow_delta s rowData hk]
    generalize s._numCols = n
    induction n with
    | zero => exact h
    | succ n ih =>
      rw [deltaLoopAt_succ]
      obtain ⟨s1, e, h1 | h1 | h1⟩ := deltaCol_cases rowData (deltaLoopAt s rowData n) n
      · obtain ⟨b1, b2, rfl⟩ := h1
        rw [e]
        exact hL _ _ (hB _ _ (hB _ _ ih))
      · obtain ⟨b1, b2, b3, rfl⟩ := h1
        rw [e]
        exact hL _ _ (hB _ _ (hB _ _ (hB _ _ ih)))
      · subst h1
        rw [e]
        exact hL _ _ (hU _ _ ih)

theorem writeRows_preserves (P : RDES2Comp → Prop)
    (hB : ∀ s b, P s → P (s.writeByte b))
    (hL : ∀ s f, P s → P { s with _lastValsPntr := f })
    (hF : ∀ s, P s → P { s with _rowsSinceRaw := 0, _initialized := true })
    (rows : List (List Nat)) : ∀ s : RDES2Comp, P s → P (writeRows s rows) := by
  induction rows with
  | nil => intro s h; rw [writeRows_nil]; exact h
  | cons r rs ih =>
    intro s h
    rw [writeRows_cons]
    exact ih _ (writeRow_preserves P hB hL hF s r h)

theorem buffered_new (numCols originRefreshInt : Nat) (storage heap : Nat → Nat) :
    Buffered storage (RDES2Comp.new numCols originRefreshInt storage heap) :=
  ⟨rfl, rfl, rfl⟩

theorem buffered_writeByte (init : Nat → Nat) (s : RDES2Comp) (b : Nat)
    (h : Buffered init s) : Buffered init (s.writeByte b) := by
  obtain ⟨h1, h2, h3⟩ := h
  refine ⟨?_, ?_, ?_⟩
  · show Function.update s._storagePntr s._storagePos b = replay init (s.stores ++ [(s._storagePos, b)])
    unfold replay at *
    rw [List.foldl_append, ← h1]
    rfl
  · show (s.stores ++ [(s._storagePos, b)]).map Prod.fst =
      (List.range (s.stores ++ [(s._storagePos, b)]).length).map (fun k => k % 2 ^ 32)
    rw [List.map_append, h2, List.length_append, List.length_singleton, List.range_succ,
      List.map_append, h3]
    rfl
  · show (s._storagePos + 1) % 2 ^ 32 = (s.stores ++ [(s._storagePos, b)]).length % 2 ^ 32
    rw [List.length_append, List.length_singleton, h3]
    omega

theorem buffered_writeRows (init : Nat → Nat) (rows : List (List Nat)) (s : RDES2Comp)
    (h : Buffered init s) : Buffered init (writeRows s rows) :=
  writeRows_preserves (Buffered init) (buffered_writeByte init)
    (fun _ _ h => h) (fun _ h => h) rows s h

theorem replay_content (init : Nat → Nat) (stores : List (Nat × Nat))
    (hidx : stores.map Prod.fst = (List.range stores.length).map (fun k => k % 2 ^ 32))
    (hlen : stores.length ≤ 2 ^ 32) (i : Nat) :
    replay init stores i =
      if i < stores.length then (stores.map Prod.snd).getD i 0 else init i := by
  induction stores using List.reverseRecOn with
  | nil => simp [replay]
  | append_singleton st e ih =>
    rw [List.map_append, List.length_append, List.length_singleton, List.range_succ,
      List.map_append] at hidx
    have hl : (st.map Prod.fst).length = ((List.range st.length).map (fun k => k % 2 ^ 32)).length := by
      simp
    obtain ⟨hst, he⟩ := List.append_inj hidx hl
    rw [List.length_append, List.length_singleton] at hlen
    have he1 : e.1 = st.length := by
      simp only [List.map_cons, List.map_nil, List.cons.injEq, and_true] at he
      rw [he]
      exact Nat.mod_eq_of_lt (by omega)
    have ih1 := ih hst (by omega)
    have hrep : replay init (st ++ [e]) = Function.update (replay init st) e.1 e.2 := by
      unfold replay
      rw [List.foldl_append]
      rfl
    rw [hrep, List.length_append, List.length_singleton, List.map_append]
    by_cases hi : i = st.length
    · subst hi
      rw [he1, Function.update_same, if_pos (by omega),
        List.getD_append_right _ _ _ _ (by simp)]
      simp
    · rw [Function.update_noteq (by rw [he1]; exact hi), ih1]
      by_cases hlt : i < st.length
      · rw [if_pos hlt, if_pos (by omega), List.getD_append _ _ _ _ (by simpa using hlt)]
      · rw [if_neg hlt, if_neg (by omega)]

/-- While fewer than 2^32 bytes have been written, the caller's buffer holds
the bytes written, in order, at the indices `0 .. getSize() - 1`, and is
untouched from index `getSize()` on. -/
theorem buffer_holds_stream (numCols originRefreshInt : Nat) (storage heap : Nat → Nat)
    (rows : List (List Nat))
    (hlen : (bytesWritten
      (writeRows (RDES2Comp.new numCols originRefreshInt storage heap) rows)).length < 2 ^ 32) :
    (writeRows (RDES2Comp.new numCols originRefreshInt storage heap) rows).getSize =
      (bytesWritten
        (writeRows (RDES2Comp.new numCols originRefreshInt storage heap) rows)).length ∧
    ∀ i, (writeRows (RDES2Comp.new numCols originRefreshInt storage heap) rows)._storagePntr i =
      if i < (writeRows (RDES2Comp.new numCols originRefreshInt storage heap) rows).getSize
      then (bytesWritten
        (writeRows (RDES2Comp.new numCols originRefreshInt storage heap) rows)).getD i 0
      else storage i := by
  obtain ⟨h1, h2, h3⟩ := buffered_writeRows storage rows _
    (buffered_new numCols originRefreshInt storage heap)
  generalize writeRows (RDES2Comp.new numCols originRefreshInt storage heap) rows = s at *
  have hl : s.stores.length < 2 ^ 32 := by simpa [bytesWritten] using hlen
  have hsize : s.getSize = (bytesWritten s).length := by
    unfold RDES2Comp.getSize bytesWritten
    rw [h3, List.length_map]
    exact Nat.mod_eq_of_lt hl
  refine ⟨hsize, fun i => ?_⟩
  rw [h1, replay_content storage s.stores h2 (by omega) i, hsize]
  simp [bytesWritten]

/-! ## The claims -/

/-- C1. Whole-stream round trip: for `numCols` in [1,255], any refresh interval
and any sequence of rows of length `numCols` with values in [0, 2^31-1], the
bytes written by `writeRow`, called on each row in order from a freshly
constructed encoder, are decoded by the wire-format decoder, which is given
only `numCols`, to exactly that sequence of rows, with no byte left over.
(It holds for the empty sequence as well.) -/
theorem stream_round_trip (numCols refreshInterval : Nat) (storage heap : Nat → Nat)
    (rows : List (List Nat)) (h1 : 1 ≤ numCols) (h2 : numCols ≤ 255)
    (hlen : ∀ r ∈ rows, r.length = numCols) (hval : ∀ r ∈ rows, ∀ v ∈ r, v < 2 ^ 31) :
    decode numCols
      (bytesWritten (writeRows (RDES2Comp.new numCols refreshInterval storage heap) rows)) =
      some rows := by
  have hn : (RDES2Comp.new numCols refreshInterval storage heap)._numCols = numCols := by
    show numCols % 2 ^ 8 = numCols
    omega
  obtain ⟨out, hb, hl, hd⟩ := writeRows_decodes rows
    (RDES2Comp.new numCols refreshInterval storage heap) (List.replicate numCols none)
    (by rw [hn]; exact h1) (by rw [hn]; exact hlen) hval
    ⟨by rw [hn, List.length_replicate], fun h => by simp [RDES2Comp.new] at h⟩
  have h0 : bytesWritten (RDES2Comp.new numCols refreshInterval storage heap) = [] := rfl
  rw [hb, h0, List.nil_append]
  exact hd _ hl

/-- Witness of C1: two columns, refresh interval 1, three rows. -/
theorem stream_round_trip_witness :
    decode 2 (bytesWritten (writeRows (RDES2Comp.new 2 1 (fun _ => 0) (fun _ => 0))
      [[100, 100000], [105, 99995], [50000, 2147483647]])) =
      some [[100, 100000], [105, 99995], [50000, 2147483647]] :=
  stream_round_trip 2 1 (fun _ => 0) (fun _ => 0)
    [[100, 100000], [105, 99995], [50000, 2147483647]] (by decide) (by decide) (by decide)
    (by decide)

/-- C5. `writeUint32(v)` appends exactly 4 bytes `b0 b1 b2 b3`: bit 7 of `b0`
is 0, `b0` is bits 30-24 of `v`, `b1` bits 23-16, `b2` bits 15-8, `b3` bits
7-0; read back big-endian they give `v & 0x7FFFFFFF`, which is `v` exactly
when `v < 2^31`.  The cursor advances by 4. -/
theorem writeUint32_layout (s : RDES2Comp) (v : Nat) :
    ∃ b0 b1 b2 b3,
      bytesWritten (s.writeUint32 v) = bytesWritten s ++ [b0, b1, b2, b3] ∧
      (s.writeUint32 v).getSize = (s.getSize + 4) % 2 ^ 32 ∧
      b0.testBit 7 = false ∧
      b0 = v / 2 ^ 24 % 2 ^ 7 ∧ b1 = v / 2 ^ 16 % 2 ^ 8 ∧ b2 = v / 2 ^ 8 % 2 ^ 8 ∧
      b3 = v % 2 ^ 8 ∧
      b0 * 2 ^ 24 + b1 * 2 ^ 16 + b2 * 2 ^ 8 + b3 = v &&& 0x7FFFFFFF ∧
      (b0 * 2 ^ 24 + b1 * 2 ^ 16 + b2 * 2 ^ 8 + b3 = v ↔ v < 2 ^ 31) := by
  have hand : v &&& 0x7FFFFFFF = v % 2 ^ 31 := Nat.and_pow_two_sub_one_eq_mod v 31
  refine ⟨v / 2 ^ 24 % 2 ^ 7, v / 2 ^ 16 % 2 ^ 8, v / 2 ^ 8 % 2 ^ 8, v % 2 ^ 8,
    bytesWritten_writeUint32 s v, writeUint32_storagePos s v,
    Nat.testBit_lt_two_pow (Nat.mod_lt _ (by norm_num)), rfl, rfl, rfl, rfl, ?_, ?_⟩
  · rw [hand]; omega
  · omega

/-- C6. On a freshly constructed encoder with `numCols` in [1,255] and any
refresh interval (0 included), `getSize()` is 0; the first `writeRow` call,
on a row of length `numCols`, returns true, appends exactly the RawValue codes
of `row[0]`, `row[1]`, ... in column order, and leaves `getSize()` at
`4 * numCols`. -/
theorem first_writeRow (numCols refreshInterval : Nat) (storage heap : Nat → Nat)
    (row : List Nat) (h1 : 1 ≤ numCols) (h2 : numCols ≤ 255) (hlen : row.length = numCols)
    (hval : ∀ v ∈ row, v < 2 ^ 31) :
    (RDES2Comp.new numCols refreshInterval storage heap).getSize = 0 ∧
    bytesWritten (RDES2Comp.new numCols refreshInterval storage heap) = [] ∧
    ((RDES2Comp.new numCols refreshInterval storage heap).writeRow row).2 = true ∧
    bytesWritten ((RDES2Comp.new numCols refreshInterval storage heap).writeRow row).1 =
      row.flatMap RawValue ∧
    (row.flatMap RawValue).length = 4 * numCols ∧
    (∀ rest, decodeRow (List.replicate numCols none) (row.flatMap RawValue ++ rest) =
      some (row, rest)) ∧
    ((RDES2Comp.new numCols refreshInterval storage heap).writeRow row).1.getSize =
      4 * numCols := by
  have hn : (RDES2Comp.new numCols refreshInterval storage heap)._numCols = numCols := by
    show numCols % 2 ^ 8 = numCols
    omega
  have hk : keyframeDue (RDES2Comp.new numCols refreshInterval storage heap) := Or.inl rfl
  have hbytes : bytesWritten
      ((RDES2Comp.new numCols refreshInterval storage heap).writeRow row).1 =
      row.flatMap RawValue := by
    rw [writeRow_bytes_keyframe _ row hk, hn]
    show [] ++ _ = _
    rw [List.nil_append, ← List.flatMap_map (RDES2Comp.rowAt row) RawValue,
      row_eq_map_rowAt row numCols hlen]
  have hlen4 : (row.flatMap RawValue).length = 4 * numCols := by
    rw [flatMap_length_const RawValue 4 row (fun c _ => rfl), hlen]
  refine ⟨rfl, rfl, ?_, hbytes, hlen4, ?_, ?_⟩
  · rw [writeRow_keyframe _ row hk]
  · intro rest
    have := decodeRow_flatMap (fun _ => none) RawValue id row
      (fun c hc r => decodeCode_raw none c r (hval c hc)) rest
    rw [List.map_id, List.map_const', hlen] at this
    exact this
  · rw [getSize_eq_length _ (cursorCounts_writeRow _ row (cursorCounts_new _ _ _ _)), hbytes,
      hlen4]
    omega

/-- Witness of C6: three columns, refresh interval 0. -/
theorem first_writeRow_witness :
    ((RDES2Comp.new 3 0 (fun _ => 0) (fun _ => 0)).writeRow [1, 70000, 2147483647]).1.getSize =
      4 * 3 :=
  (first_writeRow 3 0 (fun _ => 0) (fun _ => 0) [1, 70000, 2147483647] (by decide) (by decide)
    (by decide) (by decide)).2.2.2.2.2.2

/-- C2. In an initialized state that is not due a keyframe, for a column
`col` whose previous value `last` and new value `cur` are 32-bit values with
`|cur - last| <= 8191`: `writeRow` runs its delta loop, and the iteration for
`col` (from the loop state on entry to it to the state on exit, after which
the remaining columns follow) appends exactly 2 bytes `b0 b1`; bit 7 of `b0`
is 1 and bit 5 is 0, and with magnitude = the 13 bits made of bits 4-0 of
`b0` and of `b1`, `last + magnitude` (bit 6 set) or `last - magnitude`
(bit 6 clear) is `cur` exactly. -/
theorem writeRow_delta2 (s : RDES2Comp) (rowData : List Nat) (col : Nat)
    (hk : ¬ keyframeDue s) (hcol : col < s._numCols)
    (hlast : s._lastValsPntr col < 2 ^ 32) (hcur : RDES2Comp.rowAt rowData col < 2 ^ 32)
    (hup : RDES2Comp.rowAt rowData col ≤ s._lastValsPntr col + 8191)
    (hdown : s._lastValsPntr col ≤ RDES2Comp.rowAt rowData col + 8191) :
    s.writeRow rowData = (deltaLoopAt s rowData s._numCols, true) ∧
    deltaLoopAt s rowData s._numCols =
      (List.range' (col + 1) (s._numCols - (col + 1))).foldl (RDES2Comp.deltaCol rowData)
        (deltaLoopAt s rowData (col + 1)) ∧
    (deltaLoopAt s rowData col)._lastValsPntr col = s._lastValsPntr col ∧
    ∃ b0 b1,
      bytesWritten (deltaLoopAt s rowData (col + 1)) =
        bytesWritten (deltaLoopAt s rowData col) ++ [b0, b1] ∧
      (deltaLoopAt s rowData (col + 1)).getSize =
        ((deltaLoopAt s rowData col).getSize + 2) % 2 ^ 32 ∧
      b0 < 256 ∧ b1 < 256 ∧ b0.testBit 7 = true ∧ b0.testBit 5 = false ∧
      (if b0.testBit 6 = true then
          s._lastValsPntr col + (b0 % 2 ^ 5 * 2 ^ 8 + b1) = RDES2Comp.rowAt rowData col
        else
          b0 % 2 ^ 5 * 2 ^ 8 + b1 ≤ s._lastValsPntr col ∧
          s._lastValsPntr col - (b0 % 2 ^ 5 * 2 ^ 8 + b1) = RDES2Comp.rowAt rowData col) ∧
      decodeCode (some (s._lastValsPntr col)) [b0, b1] = some (RDES2Comp.rowAt rowData col, []) := by
  obtain ⟨hb, hg⟩ := deltaLoopAt_step_bytes s rowData col hlast hcur
  refine ⟨writeRow_delta s rowData hk, deltaLoopAt_rest s rowData _ _ hcol,
    deltaLoopAt_lastVal s rowData col, ?_⟩
  generalize s._lastValsPntr col = last at *
  generalize RDES2Comp.rowAt rowData col = cur at *
  by_cases hge : cur ≥ last
  · have hm : cur - last ≤ 8191 := by omega
    have hcode : deltaCode last cur = [192 + (cur - last) / 2 ^ 8, (cur - last) % 2 ^ 8] := by
      simp only [deltaCode, hge, if_true, hm, decide_True]
      exact (delta2_bytes _ hm).1
    obtain ⟨-, ⟨b7, b6, b5, bm⟩, -, -⟩ := head_bits ((cur - last) / 2 ^ 8) (by omega)
    have hdec := decodeCode_delta2 last cur [] hge hm
    rw [(delta2_bytes _ hm).1] at hdec
    rw [hcode] at hb hg
    refine ⟨_, _, hb, hg, by omega, by omega, b7, b5, ?_, hdec⟩
    rw [if_pos b6, bm]
    omega
  · have hm : last - cur ≤ 8191 := by omega
    have hcode : deltaCode last cur = [128 + (last - cur) / 2 ^ 8, (last - cur) % 2 ^ 8] := by
      simp only [deltaCode, hge, if_false, hm, if_true, decide_False]
      exact (delta2_bytes _ hm).2
    obtain ⟨⟨b7, b6, b5, bm⟩, -, -, -⟩ := head_bits ((last - cur) / 2 ^ 8) (by omega)
    have hdec := decodeCode_delta2_sub last cur [] (by omega) hm
    rw [(delta2_bytes _ hm).2] at hdec
    rw [hcode] at hb hg
    refine ⟨_, _, hb, hg, by omega, by omega, b7, b5, ?_, hdec⟩
    rw [if_neg (by rw [b6]; decide), bm]
    omega

/-- Witness of C2: column 1 of the row `[105, 99995]` after `[100, 100000]`
(a difference of -5). -/
theorem writeRow_delta2_witness :
    ¬ keyframeDue sampleState ∧
    sampleState.writeRow [105, 99995] =
      (deltaLoopAt sampleState [105, 99995] sampleState._numCols, true) :=
  ⟨by decide,
    (writeRow_delta2 sampleState [105, 99995] 1 (by decide) (by decide) (by decide) (by decide)
      (by decide) (by decide)).1⟩

/-- C3. In an initialized state that is not due a keyframe, for a column
`col` whose previous value `last` and new value `cur` are 32-bit values with
`8191 < |cur - last| <= 2097151`: the iteration of the delta loop of `writeRow`
for `col` appends exactly 3 bytes `b0 b1 b2`; bit 7 of `b0` is 1 and bit 5 is
1, and with magnitude = the 21 bits made of bits 4-0 of `b0`, of `b1` and of
`b2`, `last + magnitude` (bit 6 set) or `last - magnitude` (bit 6 clear) is
`cur` exactly. -/
theorem writeRow_delta3 (s : RDES2Comp) (rowData : List Nat) (col : Nat)
    (hk : ¬ keyframeDue s) (hcol : col < s._numCols)
    (hlast : s._lastValsPntr col < 2 ^ 32) (hcur : RDES2Comp.rowAt rowData col < 2 ^ 32)
    (hlow : s._lastValsPntr col + 8191 < RDES2Comp.rowAt rowData col ∨
      RDES2Comp.rowAt rowData col + 8191 < s._lastValsPntr col)
    (hup : RDES2Comp.rowAt rowData col ≤ s._lastValsPntr col + 2097151)
    (hdown : s._lastValsPntr col ≤ RDES2Comp.rowAt rowData col + 2097151) :
    s.writeRow rowData = (deltaLoopAt s rowData s._numCols, true) ∧
    deltaLoopAt s rowData s._numCols =
      (List.range' (col + 1) (s._numCols - (col + 1))).foldl (RDES2Comp.deltaCol rowData)
        (deltaLoopAt s rowData (col + 1)) ∧
    (deltaLoopAt s rowData col)._lastValsPntr col = s._lastValsPntr col ∧
    ∃ b0 b1 b2,
      bytesWritten (deltaLoopAt s rowData (col + 1)) =
        bytesWritten (deltaLoopAt s rowData col) ++ [b0, b1, b2] ∧
      (deltaLoopAt s rowData (col + 1)).getSize =
        ((deltaLoopAt s rowData col).getSize + 3) % 2 ^ 32 ∧
      b0 < 256 ∧ b1 < 256 ∧ b2 < 256 ∧ b0.testBit 7 = true ∧ b0.testBit 5 = true ∧
      (if b0.testBit 6 = true then
          s._lastValsPntr col + (b0 % 2 ^ 5 * 2 ^ 16 + b1 * 2 ^ 8 + b2) =
            RDES2Comp.rowAt rowData col
        else
          b0 % 2 ^ 5 * 2 ^ 16 + b1 * 2 ^ 8 + b2 ≤ s._lastValsPntr col ∧
          s._lastValsPntr col - (b0 % 2 ^ 5 * 2 ^ 16 + b1 * 2 ^ 8 + b2) =
            RDES2Comp.rowAt rowData col) ∧
      decodeCode (some (s._lastValsPntr col)) [b0, b1, b2] =
        some (RDES2Comp.rowAt rowData col, []) := by
  obtain ⟨hb, hg⟩ := deltaLoopAt_step_bytes s rowData col hlast hcur
  refine ⟨writeRow_delta s rowData hk, deltaLoopAt_rest s rowData _ _ hcol,
    deltaLoopAt_lastVal s rowData col, ?_⟩
  generalize s._lastValsPntr col = last at *
  generalize RDES2Comp.rowAt rowData col = cur at *
  by_cases hge : cur ≥ last
  · have hm2 : ¬ cur - last ≤ 8191 := by omega
    have hm : cur - last ≤ 2097151 := by omega
    have hcode : deltaCode last cur =
        [224 + (cur - last) / 2 ^ 16, (cur - last) / 2 ^ 8 % 2 ^ 8, (cur - last) % 2 ^ 8] := by
      simp only [deltaCode, hge, if_true, hm2, if_false, hm, decide_True]
      exact (delta3_bytes _ hm).1
    obtain ⟨-, -, -, ⟨b7, b6, b5, bm⟩⟩ := head_bits ((cur - last) / 2 ^ 16) (by omega)
    have hdec := decodeCode_delta3 last cur [] hge hm
    rw [(delta3_bytes _ hm).1] at hdec
    rw [hcode] at hb hg
    refine ⟨_, _, _, hb, hg, by omega, by omega, by omega, b7, b5, ?_, hdec⟩
    rw [if_pos b6, bm]
    omega
  · have hm2 : ¬ last - cur ≤ 8191 := by omega
    have hm : last - cur ≤ 2097151 := by omega
    have hcode : deltaCode last cur =
        [160 + (last - cur) / 2 ^ 16, (last - cur) / 2 ^ 8 % 2 ^ 8, (last - cur) % 2 ^ 8] := by
      simp only [deltaCode, hge, if_false, hm2, hm, if_true, decide_False]
      exact (delta3_bytes _ hm).2
    obtain ⟨-, -, ⟨b7, b6, b5, bm⟩, -⟩ := head_bits ((last - cur) / 2 ^ 16) (by omega)
    have hdec := decodeCode_delta3_sub last cur [] (by omega) hm
    rw [(delta3_bytes _ hm).2] at hdec
    rw [hcode] at hb hg
    refine ⟨_, _, _, hb, hg, by omega, by omega, by omega, b7, b5, ?_, hdec⟩
    rw [if_neg (by rw [b6]; decide), bm]
    omega

/-- Witness of C3: column 0 of the row `[50000, 100000]` after `[100, 100000]`
(a difference of +49900). -/
theorem writeRow_delta3_witness :
    ¬ keyframeDue sampleState ∧
    sampleState.writeRow [50000, 100000] =
      (deltaLoopAt sampleState [50000, 100000] sampleState._numCols, true) :=
  ⟨by decide,
    (writeRow_delta3 sampleState [50000, 100000] 0 (by decide) (by decide) (by decide)
      (by decide) (by decide) (by decide) (by decide)).1⟩

/-- C4. In an initialized state that is not due a keyframe, for a column
`col` whose previous value `last` and new value `cur` are 32-bit values with
`|cur - last| > 2097151`: the iteration of the delta loop of `writeRow` for
`col` appends exactly the 4 bytes of the raw encoding of `cur`, the bytes
that `writeUint32(cur)` and the keyframe loop body write, whose leading bit
is 0; it is not a delta code. -/
theorem writeRow_raw_fallback (s : RDES2Comp) (rowData : List Nat) (col : Nat)
    (hk : ¬ keyframeDue s) (hcol : col < s._numCols)
    (hlast : s._lastValsPntr col < 2 ^ 32) (hcur : RDES2Comp.rowAt rowData col < 2 ^ 32)
    (hbig : s._lastValsPntr col + 2097151 < RDES2Comp.rowAt rowData col ∨
      RDES2Comp.rowAt rowData col + 2097151 < s._lastValsPntr col) :
    s.writeRow rowData = (deltaLoopAt s rowData s._numCols, true) ∧
    deltaLoopAt s rowData s._numCols =
      (List.range' (col + 1) (s._numCols - (col + 1))).foldl (RDES2Comp.deltaCol rowData)
        (deltaLoopAt s rowData (col + 1)) ∧
    (deltaLoopAt s rowData col)._lastValsPntr col = s._lastValsPntr col ∧
    bytesWritten (deltaLoopAt s rowData (col + 1)) =
      bytesWritten ((deltaLoopAt s rowData col).writeUint32 (RDES2Comp.rowAt rowData col)) ∧
    bytesWritten (deltaLoopAt s rowData (col + 1)) =
      bytesWritten (RDES2Comp.rawCol rowData (deltaLoopAt s rowData col) col) ∧
    (deltaLoopAt s rowData (col + 1)).getSize =
      ((deltaLoopAt s rowData col).getSize + 4) % 2 ^ 32 ∧
    ∃ b0 b1 b2 b3,
      bytesWritten (deltaLoopAt s rowData (col + 1)) =
        bytesWritten (deltaLoopAt s rowData col) ++ [b0, b1, b2, b3] ∧
      [b0, b1, b2, b3] = RawValue (RDES2Comp.rowAt rowData col) ∧
      b0.testBit 7 = false := by
  obtain ⟨hb, hg⟩ := deltaLoopAt_step_bytes s rowData col hlast hcur
  have hcode : deltaCode (s._lastValsPntr col) (RDES2Comp.rowAt rowData col) =
      RawValue (RDES2Comp.rowAt rowData col) := by
    unfold deltaCode
    simp only []
    split
    · rw [if_neg (by omega), if_neg (by omega)]
    · rw [if_neg (by omega), if_neg (by omega)]
  rw [hcode] at hb hg
  refine ⟨writeRow_delta s rowData hk, deltaLoopAt_rest s rowData _ _ hcol,
    deltaLoopAt_lastVal s rowData col, ?_, ?_, hg, _, _, _, _, hb, rfl,
    Nat.testBit_lt_two_pow (Nat.mod_lt _ (by norm_num))⟩
  · rw [hb, bytesWritten_writeUint32]
  · rw [hb, rawCol_bytes]

/-- Witness of C4: column 0 of the row `[3000000, 100000]` after
`[100, 100000]`. -/
theorem writeRow_raw_fallback_witness :
    ¬ keyframeDue sampleState ∧
    sampleState.writeRow [3000000, 100000] =
      (deltaLoopAt sampleState [3000000, 100000] sampleState._numCols, true) :=
  ⟨by decide,
    (writeRow_raw_fallback sampleState [3000000, 100000] 0 (by decide) (by decide) (by decide)
      (by decide) (by decide)).1⟩

/-- C7. Exact delta bit layout.  For a column of a delta row with previous
value `last` and new value `cur`, any two 32-bit values: with
`signAdd = (cur >= last)` and `magnitude = |cur - last|` (the exact difference,
no wraparound), the iteration of the delta loop for that column appends the
Delta2 code `[0x80 | (signAdd << 6) | (magnitude >> 8), magnitude & 0xFF]`
when `magnitude <= 8191`, and the Delta3 code
`[0x80 | (signAdd << 6) | 0x20 | (magnitude >> 16), (magnitude >> 8) & 0xFF,
magnitude & 0xFF]` when `8191 < magnitude <= 2097151`; when `cur = last` the
bytes are `0xC0 0x00`. -/
theorem delta_bit_layout (s : RDES2Comp) (rowData : List Nat) (col : Nat)
    (hk : ¬ keyframeDue s) (hcol : col < s._numCols)
    (hlast : s._lastValsPntr col < 2 ^ 32) (hcur : RDES2Comp.rowAt rowData col < 2 ^ 32) :
    s.writeRow rowData = (deltaLoopAt s rowData s._numCols, true) ∧
    deltaLoopAt s rowData s._numCols =
      (List.range' (col + 1) (s._numCols - (col + 1))).foldl (RDES2Comp.deltaCol rowData)
        (deltaLoopAt s rowData (col + 1)) ∧
    (deltaLoopAt s rowData col)._lastValsPntr col = s._lastValsPntr col ∧
    (magnitude (s._lastValsPntr col) (RDES2Comp.rowAt rowData col) ≤ 8191 →
      bytesWritten (deltaLoopAt s rowData (col + 1)) =
        bytesWritten (deltaLoopAt s rowData col) ++
          [0x80 ||| ((if RDES2Comp.rowAt rowData col ≥ s._lastValsPntr col then 1 else 0) <<< 6)
              ||| (magnitude (s._lastValsPntr col) (RDES2Comp.rowAt rowData col) >>> 8),
            magnitude (s._lastValsPntr col) (RDES2Comp.rowAt rowData col) &&& 0xFF]) ∧
    (8191 < magnitude (s._lastValsPntr col) (RDES2Comp.rowAt rowData col) →
      magnitude (s._lastValsPntr col) (RDES2Comp.rowAt rowData col) ≤ 2097151 →
      bytesWritten (deltaLoopAt s rowData (col + 1)) =
        bytesWritten (deltaLoopAt s rowData col) ++
          [0x80 ||| ((if RDES2Comp.rowAt rowData col ≥ s._lastValsPntr col then 1 else 0) <<< 6)
              ||| 0x20 ||| (magnitude (s._lastValsPntr col) (RDES2Comp.rowAt rowData col) >>> 16),
            (magnitude (s._lastValsPntr col) (RDES2Comp.rowAt rowData col) >>> 8) &&& 0xFF,
            magnitude (s._lastValsPntr col) (RDES2Comp.rowAt rowData col) &&& 0xFF]) ∧
    (RDES2Comp.rowAt rowData col = s._lastValsPntr col →
      bytesWritten (deltaLoopAt s rowData (col + 1)) =
        bytesWritten (deltaLoopAt s rowData col) ++ [0xC0, 0x00]) := by
  obtain ⟨hb, -⟩ := deltaLoopAt_step_bytes s rowData col hlast hcur
  refine ⟨writeRow_delta s rowData hk, deltaLoopAt_rest s rowData _ _ hcol,
    deltaLoopAt_lastVal s rowData col, ?_, ?_, ?_⟩
  · intro hm
    unfold magnitude at hm
    rw [hb]
    congr 1
    unfold deltaCode magnitude
    simp only []
    rw [if_pos hm]
    unfold Delta2
    by_cases hge : RDES2Comp.rowAt rowData col ≥ s._lastValsPntr col
    · simp only [hge, if_true, decide_True]
    · simp only [hge, if_false, decide_False, Bool.false_eq_true]
  · intro hm2 hm
    unfold magnitude at hm hm2
    rw [hb]
    congr 1
    unfold deltaCode magnitude
    simp only []
    rw [if_neg (by omega), if_pos hm]
    unfold Delta3
    by_cases hge : RDES2Comp.rowAt rowData col ≥ s._lastValsPntr col
    · simp only [hge, if_true, decide_True]
    · simp only [hge, if_false, decide_False, Bool.false_eq_true]
  · intro heq
    rw [hb, heq]
    congr 1
    simp [deltaCode, Delta2]

/-- Witness of C7: column 1 of the row `[105, 100000]` after `[100, 100000]`
(an unchanged value), which gives the bytes `0xC0 0x00`. -/
theorem delta_bit_layout_witness :
    ¬ keyframeDue sampleState ∧
    bytesWritten (deltaLoopAt sampleState [105, 100000] (1 + 1)) =
      bytesWritten (deltaLoopAt sampleState [105, 100000] 1) ++ [0xC0, 0x00] :=
  ⟨by decide,
    (delta_bit_layout sampleState [105, 100000] 1 (by decide) (by decide) (by decide)
      (by decide)).2.2.2.2.2 (by decide)⟩

/-- C8, evaluated on the code: with one column and refresh interval 1, after
the keyframe `[7]` and one delta row `[8]` the counter `_rowsSinceRaw` is still
0 and no keyframe is due, so the third row `[9]` is written as the Delta2
code `C0 01` and not as the raw value `00 00 00 09`. -/
theorem refresh_not_triggered :
    (writeRows (RDES2Comp.new 1 1 (fun _ => 0) (fun _ => 0)) [[7], [8]])._rowsSinceRaw = 0 ∧
    ¬ keyframeDue (writeRows (RDES2Comp.new 1 1 (fun _ => 0) (fun _ => 0)) [[7], [8]]) ∧
    bytesWritten (writeRows (RDES2Comp.new 1 1 (fun _ => 0) (fun _ => 0)) [[7], [8], [9]]) =
      [0x00, 0x00, 0x00, 0x07, 0xC0, 0x01, 0xC0, 0x01] := by
  decide

/-- C9. In every state reached from construction by `writeRow` calls (rows of
32-bit values), `_rowsSinceRaw` is 0, whatever the refresh interval.  Before
the first call a keyframe is due; after one or more calls no keyframe is due:
the next call runs the delta loop, and its iteration for a column appends 4
bytes exactly when the magnitude exceeds 2097151. -/
theorem rowsSinceRaw_stays_zero (numCols refreshInterval : Nat) (storage heap : Nat → Nat)
    (rows : List (List Nat)) (rowData : List Nat) (col : Nat)
    (h32 : ∀ r ∈ rows, ∀ v ∈ r, v < 2 ^ 32) (hcur : RDES2Comp.rowAt rowData col < 2 ^ 32)
    (hn : numCols ≤ 255) (hcol : col < numCols) :
    (writeRows (RDES2Comp.new numCols refreshInterval storage heap) rows)._rowsSinceRaw = 0 ∧
    (rows = [] →
      keyframeDue (writeRows (RDES2Comp.new numCols refreshInterval storage heap) rows)) ∧
    (rows ≠ [] →
      ¬ keyframeDue (writeRows (RDES2Comp.new numCols refreshInterval storage heap) rows) ∧
      (writeRows (RDES2Comp.new numCols refreshInterval storage heap) rows).writeRow rowData =
        (deltaLoopAt (writeRows (RDES2Comp.new numCols refreshInterval storage heap) rows)
          rowData
          (writeRows (RDES2Comp.new numCols refreshInterval storage heap) rows)._numCols,
          true) ∧
      ((bytesWritten (deltaLoopAt
            (writeRows (RDES2Comp.new numCols refreshInterval storage heap) rows) rowData
            (col + 1))).length =
          (bytesWritten (deltaLoopAt
            (writeRows (RDES2Comp.new numCols refreshInterval storage heap) rows) rowData
            col)).length + 4 ↔
        2097151 < magnitude
          ((writeRows (RDES2Comp.new numCols refreshInterval storage heap) rows)._lastValsPntr
            col)
          (RDES2Comp.rowAt rowData col))) := by
  obtain ⟨r1, r2, r3, r4, r5⟩ := writeRows_reach rows
    (RDES2Comp.new numCols refreshInterval storage heap) rfl
    (fun h => by simp [RDES2Comp.new] at h) h32
  have hfirst : rows = [] →
      keyframeDue (writeRows (RDES2Comp.new numCols refreshInterval storage heap) rows) := by
    intro h
    subst h
    exact Or.inl rfl
  have hcol1 : col < (RDES2Comp.new numCols refreshInterval storage heap)._numCols := by
    show col < numCols % 2 ^ 8
    omega
  generalize writeRows (RDES2Comp.new numCols refreshInterval storage heap) rows = s at *
  refine ⟨r1, hfirst, ?_⟩
  · intro hne
    have hi := r5 hne
    have hk : ¬ keyframeDue s := by
      unfold keyframeDue
      rw [hi, r1]
      intro h
      rcases h with h | ⟨h1, h2⟩
      · exact absurd h (by decide)
      · omega
    refine ⟨hk, writeRow_delta s rowData hk, ?_⟩
    obtain ⟨hb, -⟩ := deltaLoopAt_step_bytes s rowData col (r4 hi col hcol1) hcur
    rw [hb, List.length_append, ← not_le]
    have := deltaCode_length_four (s._lastValsPntr col) (RDES2Comp.rowAt rowData col)
    unfold magnitude
    constructor
    · intro h
      have h4 := this.mp (by omega)
      split <;> omega
    · intro h
      have h4 := this.mpr (by split at h <;> omega)
      omega

/-- Witness of C9: three columns, refresh interval 2, after two rows; the next
row changes column 1 by 3000000. -/
theorem rowsSinceRaw_stays_zero_witness :
    (writeRows (RDES2Comp.new 3 2 (fun _ => 0) (fun _ => 0))
      [[1, 2, 3], [4, 5, 6]])._rowsSinceRaw = 0 :=
  (rowsSinceRaw_stays_zero 3 2 (fun _ => 0) (fun _ => 0) [[1, 2, 3], [4, 5, 6]]
    [4, 3000005, 6] 1 (by decide) (by decide) (by decide) (by decide)).1

/-- C10. Concrete scenario: two columns, refresh interval 0, rows
`[100,100000]`, `[105,99995]`, `[50000,100000]` written in order to a fresh
encoder.  Row 1 emits two RawValue codes and `getSize()` is 8; row 2 emits
Delta2(signAdd=1, magnitude=5) and Delta2(signAdd=0, magnitude=5) and
`getSize()` is 12; row 3 emits Delta3(signAdd=1, magnitude=49895) and
Delta2(signAdd=1, magnitude=5) and `getSize()` is 17; the stream is
`00 00 00 64 00 01 86 A0 C0 05 80 05 E0 C2 E7 C0 05`. -/
theorem concrete_scenario (storage heap : Nat → Nat) :
    bytesWritten (writeRows (RDES2Comp.new 2 0 storage heap) [[100, 100000]]) =
      RawValue 100 ++ RawValue 100000 ∧
    (writeRows (RDES2Comp.new 2 0 storage heap) [[100, 100000]]).getSize = 8 ∧
    bytesWritten (writeRows (RDES2Comp.new 2 0 storage heap) [[100, 100000], [105, 99995]]) =
      bytesWritten (writeRows (RDES2Comp.new 2 0 storage heap) [[100, 100000]]) ++
        Delta2 true 5 ++ Delta2 false 5 ∧
    (writeRows (RDES2Comp.new 2 0 storage heap) [[100, 100000], [105, 99995]]).getSize = 12 ∧
    bytesWritten (writeRows (RDES2Comp.new 2 0 storage heap)
        [[100, 100000], [105, 99995], [50000, 100000]]) =
      bytesWritten (writeRows (RDES2Comp.new 2 0 storage heap) [[100, 100000], [105, 99995]]) ++
        Delta3 true 49895 ++ Delta2 true 5 ∧
    (writeRows (RDES2Comp.new 2 0 storage heap)
        [[100, 100000], [105, 99995], [50000, 100000]]).getSize = 17 ∧
    bytesWritten (writeRows (RDES2Comp.new 2 0 storage heap)
        [[100, 100000], [105, 99995], [50000, 100000]]) =
      [0x00, 0x00, 0x00, 0x64, 0x00, 0x01, 0x86, 0xA0, 0xC0, 0x05, 0x80, 0x05, 0xE0, 0xC2, 0xE7,
        0xC0, 0x05] := by
  have hk0 : keyframeDue (RDES2Comp.new 2 0 storage heap) := Or.inl rfl
  obtain ⟨f1, f2, f3, f4, f5⟩ := writeRow_state (RDES2Comp.new 2 0 storage heap) [100, 100000]
  have e1 : bytesWritten ((RDES2Comp.new 2 0 storage heap).writeRow [100, 100000]).1 =
      RawValue 100 ++ RawValue 100000 :=
    (writeRow_bytes_keyframe _ [100, 100000] hk0).trans rfl
  have hn1 : ((RDES2Comp.new 2 0 storage heap).writeRow [100, 100000]).1._numCols = 2 := f1
  have hk1 : ¬ keyframeDue ((RDES2Comp.new 2 0 storage heap).writeRow [100, 100000]).1 := by
    unfold keyframeDue
    rw [f2, f4]
    intro h
    rcases h with h | ⟨h, -⟩
    · exact absurd h (by decide)
    · exact Nat.lt_irrefl 0 h
  have c1 := cursorCounts_writeRow _ [100, 100000] (cursorCounts_new 2 0 storage heap)
  obtain ⟨e2, hn2, hk2, l20, l21⟩ := two_col_delta _ 100 100000 105 99995 hn1 hk1
    ((f5 0).trans rfl) ((f5 1).trans rfl) (by norm_num) (by norm_num) (by norm_num)
    (by norm_num)
  have c2 := cursorCounts_writeRow _ [105, 99995] c1
  obtain ⟨e3, -, -, -, -⟩ := two_col_delta _ 105 99995 50000 100000 hn2 hk2 l20 l21
    (by norm_num) (by norm_num) (by norm_num) (by norm_num)
  have c3 := cursorCounts_writeRow _ [50000, 100000] c2
  have d1 : deltaCode 100 105 = Delta2 true 5 := by decide
  have d2 : deltaCode 100000 99995 = Delta2 false 5 := by decide
  have d3 : deltaCode 105 50000 = Delta3 true 49895 := by decide
  have d4 : deltaCode 99995 100000 = Delta2 true 5 := by decide
  rw [d1, d2] at e2
  rw [d3, d4] at e3
  have g1 := getSize_eq_length _ c1
  have g2 := getSize_eq_length _ c2
  have g3 := getSize_eq_length _ c3
  rw [e2, e1] at e3
  rw [e1] at e2
  rw [e1] at g1
  rw [e2] at g2
  rw [e3] at g3
  simp only [writeRows_cons, writeRows_nil]
  refine ⟨e1, g1.trans (by decide), ?_, g2.trans (by decide), ?_, g3.trans (by decide), ?_⟩
  · rw [e2, e1]
  · rw [e3, e2]
  · exact e3.trans (by decide)

/-- C11. For every 32-bit signed `x` (indeed every integer), `unsignify(x)` is
`(x + 536870911) mod 2^32` as an unsigned 32-bit value, the boundary values
included: `unsignify(-536870911) = 0`, `unsignify(-536870912) = 4294967295`,
`unsignify(2147483647) = 2684354558`, `unsignify(-2147483648) = 2684354559`.
The result does not depend on the encoder state, and the method returns a
value only. -/
theorem unsignify_eq (s t : RDES2Comp) (x : Int) :
    (s.unsignify x : Int) = (x + 536870911) % 2 ^ 32 ∧
    s.unsignify x < 2 ^ 32 ∧
    s.unsignify x = t.unsignify x ∧
    s.unsignify (-536870911) = 0 ∧
    s.unsignify (-536870912) = 4294967295 ∧
    s.unsignify 2147483647 = 2684354558 ∧
    s.unsignify (-2147483648) = 2684354559 := by
  refine ⟨?_, ?_, rfl, ?_, ?_, ?_, ?_⟩
  · unfold RDES2Comp.unsignify; omega
  · unfold RDES2Comp.unsignify; omega
  · unfold RDES2Comp.unsignify; decide
  · unfold RDES2Comp.unsignify; decide
  · unfold RDES2Comp.unsignify; decide
  · unfold RDES2Comp.unsignify; decide

/-- C12. `writeRow` has no failure path: in every state and for every row it
returns true, on the keyframe branch and on the delta branch alike. -/
theorem writeRow_returns_true (s : RDES2Comp) (rowData : List Nat) :
    (s.writeRow rowData).2 = true ∧
    (s.writeRow rowData =
        ({ rawLoopAt s rowData s._numCols with _rowsSinceRaw := 0, _initialized := true }, true) ∨
      s.writeRow rowData = (deltaLoopAt s rowData s._numCols, true)) := by
  by_cases hk : keyframeDue s
  · rw [writeRow_keyframe s rowData hk]
    exact ⟨rfl, Or.inl rfl⟩
  · rw [writeRow_delta s rowData hk]
    exact ⟨rfl, Or.inr rfl⟩

theorem testBit31_of_ge (n : Nat) (h1 : 2 ^ 31 ≤ n) (h2 : n < 2 ^ 32) :
    n.testBit 31 = true := by
  have e : n = 2 ^ 31 + (n - 2 ^ 31) := by omega
  rw [e, Nat.testBit_two_pow_add_eq, Nat.testBit_lt_two_pow (by omega)]
  rfl

/-- C19. For every 32-bit signed `x`: `unsignify(x) <= 2^31 - 1` exactly when
`-536870911 <= x <= 1610612736`; outside that interval bit 31 of the result is
set; and for `x <= y` both in the interval, `unsignify(x) <= unsignify(y)` and
`unsignify(y) - unsignify(x) = y - x`. -/
theorem unsignify_domain (s : RDES2Comp) (x y : Int)
    (hx1 : -2 ^ 31 ≤ x) (hx2 : x < 2 ^ 31) (hy1 : -2 ^ 31 ≤ y) (hy2 : y < 2 ^ 31) :
    (s.unsignify x ≤ 2 ^ 31 - 1 ↔ (-536870911 ≤ x ∧ x ≤ 1610612736)) ∧
    (¬ (-536870911 ≤ x ∧ x ≤ 1610612736) →
      (s.unsignify x).testBit 31 = true ∧ 2 ^ 31 ≤ s.unsignify x) ∧
    ((-536870911 ≤ x ∧ x ≤ 1610612736) → (s.unsignify x).testBit 31 = false) ∧
    (-536870911 ≤ x → x ≤ y → y ≤ 1610612736 →
      s.unsignify x ≤ s.unsignify y ∧
      ((s.unsignify y : Int) - (s.unsignify x : Int) = y - x) ∧
      s.unsignify y - s.unsignify x = (y - x).toNat) := by
  have hlt : s.unsignify x < 2 ^ 32 := by unfold RDES2Comp.unsignify; omega
  have hbit : (s.unsignify x).testBit 31 = decide (2 ^ 31 ≤ s.unsignify x) := by
    by_cases h : 2 ^ 31 ≤ s.unsignify x
    · rw [decide_eq_true h]
      exact testBit31_of_ge _ h hlt
    · rw [decide_eq_false h]
      exact Nat.testBit_lt_two_pow (by omega)
  refine ⟨?_, ?_, ?_, ?_⟩
  · unfold RDES2Comp.unsignify; omega
  · intro h
    have h31 : 2 ^ 31 ≤ s.unsignify x := by
      unfold RDES2Comp.unsignify; omega
    exact ⟨by rw [hbit, decide_eq_true h31], h31⟩
  · intro h
    have h31 : ¬ 2 ^ 31 ≤ s.unsignify x := by
      unfold RDES2Comp.unsignify; omega
    rw [hbit, decide_eq_false h31]
  · intro h1 h2 h3
    unfold RDES2Comp.unsignify
    omega

/-- Witness of C19: `x = -5`, `y = 1000`. -/
theorem unsignify_domain_witness :
    (sampleState.unsignify (-5) ≤ 2 ^ 31 - 1 ↔
      ((-536870911 : Int) ≤ -5 ∧ (-5 : Int) ≤ 1610612736)) :=
  (unsignify_domain sampleState (-5) 1000 (by decide) (by decide) (by decide) (by decide)).1

theorem lvlOf_range (lastVal curVal : Nat) :
    RDES2Comp.lvlOf lastVal curVal = 2 ∨ RDES2Comp.lvlOf lastVal curVal = 3 ∨
      RDES2Comp.lvlOf lastVal curVal = 4 := by
  have key : ∀ off : Nat, (if off ≤ LVL_2_MAX then 2 else if off ≤ LVL_3_MAX then 3 else 4) = 2 ∨
      (if off ≤ LVL_2_MAX then 2 else if off ≤ LVL_3_MAX then 3 else 4) = 3 ∨
      (if off ≤ LVL_2_MAX then 2 else if off ≤ LVL_3_MAX then 3 else 4) = 4 := by
    intro off
    by_cases h2 : off ≤ LVL_2_MAX
    · rw [if_pos h2]; exact Or.inl rfl
    · rw [if_neg h2]
      by_cases h3 : off ≤ LVL_3_MAX
      · rw [if_pos h3]; exact Or.inr (Or.inl rfl)
      · rw [if_neg h3]; exact Or.inr (Or.inr rfl)
  exact key _

theorem deltaCol_stores_length (rowData : List Nat) (s : RDES2Comp) (col : Nat) :
    (RDES2Comp.deltaCol rowData s col).stores.length =
      s.stores.length + RDES2Comp.lvlOf (s._lastValsPntr col) (RDES2Comp.rowAt rowData col) := by
  generalize hL : s._lastValsPntr col = last
  generalize hC : RDES2Comp.rowAt rowData col = cur
  by_cases hge : cur ≥ last
  · by_cases h2 : (cur - last) % 4294967296 ≤ 8191
    · simp [RDES2Comp.deltaCol, RDES2Comp.lvlOf, hL, hC, hge, h2, LVL_2_MAX]
    · by_cases h3 : (cur - last) % 4294967296 ≤ 2097151
      · simp [RDES2Comp.deltaCol, RDES2Comp.lvlOf, hL, hC, hge, h2, h3, LVL_2_MAX, LVL_3_MAX]
      · simp [RDES2Comp.deltaCol, RDES2Comp.lvlOf, hL, hC, hge, h2, h3, LVL_2_MAX, LVL_3_MAX,
          RDES2Comp.writeUint32]
  · by_cases h2 : (last - cur) % 4294967296 ≤ 8191
    · simp [RDES2Comp.deltaCol, RDES2Comp.lvlOf, hL, hC, hge, h2, LVL_2_MAX]
    · by_cases h3 : (last - cur) % 4294967296 ≤ 2097151
      · simp [RDES2Comp.deltaCol, RDES2Comp.lvlOf, hL, hC, hge, h2, h3, LVL_2_MAX, LVL_3_MAX]
      · simp [RDES2Comp.deltaCol, RDES2Comp.lvlOf, hL, hC, hge, h2, h3, LVL_2_MAX, LVL_3_MAX,
          RDES2Comp.writeUint32]

/-! ## Cost of a row and the buffer seen from an arbitrary state -/

theorem rawLoopAt_stores_length (s : RDES2Comp) (rowData : List Nat) (n : Nat) :
    (rawLoopAt s rowData n).stores.length = s.stores.length + 4 * n := by
  have h := congrArg List.length (rawLoopAt_bytes s rowData n)
  rw [List.length_append,
    flatMap_length_const (fun c => RawValue (RDES2Comp.rowAt rowData c)) 4 _ (fun c _ => rfl),
    List.length_range] at h
  simpa [bytesWritten] using h

theorem deltaLoopAt_stores_length (s : RDES2Comp) (rowData : List Nat) (n : Nat) :
    (deltaLoopAt s rowData n).stores.length =
      s.stores.length + ((List.range n).map
        (fun c => RDES2Comp.lvlOf (s._lastValsPntr c) (RDES2Comp.rowAt rowData c))).sum := by
  induction n with
  | zero => simp [deltaLoopAt]
  | succ n ih =>
    rw [deltaLoopAt_succ, deltaCol_stores_length, ih, deltaLoopAt_lastVal, List.range_succ,
      List.map_append, List.sum_append]
    simp
    omega

theorem lvl_sum_bounds (f : Nat → Nat) (n : Nat)
    (h : ∀ c, f c = 2 ∨ f c = 3 ∨ f c = 4) :
    2 * n ≤ ((List.range n).map f).sum ∧ ((List.range n).map f).sum ≤ 4 * n := by
  induction n with
  | zero => simp
  | succ n ih =>
    rw [List.range_succ, List.map_append, List.sum_append]
    have := h n
    simp only [List.map_cons, List.map_nil, List.sum_cons, List.sum_nil]
    omega

theorem appendedBy_refl (s : RDES2Comp) (h : s._storagePos < 2 ^ 32) : AppendedBy s s [] := by
  refine ⟨by simp, rfl, rfl, ?_⟩
  simp only [List.length_nil, Nat.add_zero]
  exact (Nat.mod_eq_of_lt h).symm

theorem appendedBy_writeByte (s t : RDES2Comp) (new : List (Nat × Nat)) (b : Nat)
    (h : AppendedBy s t new) : AppendedBy s (t.writeByte b) (new ++ [(t._storagePos, b)]) := by
  obtain ⟨h1, h2, h3, h4⟩ := h
  refine ⟨?_, ?_, ?_, ?_⟩
  · show t.stores ++ [(t._storagePos, b)] = s.stores ++ (new ++ [(t._storagePos, b)])
    rw [h1, List.append_assoc]
  · show Function.update t._storagePntr t._storagePos b =
      replay s._storagePntr (new ++ [(t._storagePos, b)])
    unfold replay at *
    rw [List.foldl_append, ← h2]
    rfl
  · rw [List.map_append, h3, List.length_append, List.length_singleton, List.range_succ,
      List.map_append, h4]
    rfl
  · show (t._storagePos + 1) % 2 ^ 32 = _
    rw [List.length_append, List.length_singleton, h4]
    omega

theorem writeRow_appendedBy (s : RDES2Comp) (rowData : List Nat) (h : s._storagePos < 2 ^ 32) :
    ∃ new, AppendedBy s (s.writeRow rowData).1 new :=
  writeRow_preserves (fun t => ∃ new, AppendedBy s t new)
    (fun t b ⟨new, hn⟩ => ⟨_, appendedBy_writeByte s t new b hn⟩)
    (fun _ _ h => h) (fun _ h => h) s rowData ⟨[], appendedBy_refl s h⟩

theorem writeRow_stores_length (s : RDES2Comp) (rowData : List Nat) :
    (s.writeRow rowData).1.stores.length =
      s.stores.length +
        (if keyframeDue s then 4 * s._numCols
         else ((List.range s._numCols).map
          (fun c => RDES2Comp.lvlOf (s._lastValsPntr c) (RDES2Comp.rowAt rowData c))).sum) := by
  by_cases hk : keyframeDue s
  · rw [writeRow_keyframe s rowData hk, if_pos hk]
    exact rawLoopAt_stores_length s rowData s._numCols
  · rw [writeRow_delta s rowData hk, if_neg hk]
    exact deltaLoopAt_stores_length s rowData s._numCols

theorem writeRow_new_length (s : RDES2Comp) (rowData : List Nat) (new : List (Nat × Nat))
    (h : AppendedBy s (s.writeRow rowData).1 new) :
    new.length =
      (if keyframeDue s then 4 * s._numCols
       else ((List.range s._numCols).map
        (fun c => RDES2Comp.lvlOf (s._lastValsPntr c) (RDES2Comp.rowAt rowData c))).sum) ∧
    2 * s._numCols ≤ new.length ∧ new.length ≤ 4 * s._numCols := by
  have hl := writeRow_stores_length s rowData
  rw [h.1, List.length_append] at hl
  have hb := lvl_sum_bounds
    (fun c => RDES2Comp.lvlOf (s._lastValsPntr c) (RDES2Comp.rowAt rowData c)) s._numCols
    (fun c => lvlOf_range _ _)
  refine ⟨by omega, ?_, ?_⟩
  · split at hl <;> omega
  · split at hl <;> omega

/-- C14. In a state with `cursor + 4 * numCols < 2^32`, one `writeRow` call
increases `getSize()` by exactly `4 * numCols` when it is a keyframe, and
otherwise by the sum over the columns of the level chosen for each, which is 2,
3 or 4; so the increase is at least `2 * numCols` and at most `4 * numCols`,
and `getSize()` does not decrease.  `getSize()` is the cursor and nothing
else. -/
theorem writeRow_cost (s : RDES2Comp) (rowData : List Nat)
    (hfit : s._storagePos + 4 * s._numCols < 2 ^ 32) :
    (s.writeRow rowData).1.getSize =
      s.getSize +
        (if keyframeDue s then 4 * s._numCols
         else ((List.range s._numCols).map
          (fun c => RDES2Comp.lvlOf (s._lastValsPntr c) (RDES2Comp.rowAt rowData c))).sum) ∧
    (∀ c, RDES2Comp.lvlOf (s._lastValsPntr c) (RDES2Comp.rowAt rowData c) = 2 ∨
      RDES2Comp.lvlOf (s._lastValsPntr c) (RDES2Comp.rowAt rowData c) = 3 ∨
      RDES2Comp.lvlOf (s._lastValsPntr c) (RDES2Comp.rowAt rowData c) = 4) ∧
    s.getSize + 2 * s._numCols ≤ (s.writeRow rowData).1.getSize ∧
    (s.writeRow rowData).1.getSize ≤ s.getSize + 4 * s._numCols ∧
    s.getSize ≤ (s.writeRow rowData).1.getSize ∧
    s.getSize = s._storagePos := by
  obtain ⟨new, hn⟩ := writeRow_appendedBy s rowData (by omega)
  obtain ⟨e, lo, hi⟩ := writeRow_new_length s rowData new hn
  have hpos : (s.writeRow rowData).1.getSize = s.getSize + new.length := by
    unfold RDES2Comp.getSize
    rw [hn.2.2.2]
    exact Nat.mod_eq_of_lt (by omega)
  refine ⟨by rw [hpos, e], fun c => lvlOf_range _ _, by omega, by omega, by omega, rfl⟩

/-- Witness of C14: the sample state (cursor 8, two columns) and the row
`[105, 3000000]`, a delta row costing 2 + 4 bytes. -/
theorem writeRow_cost_witness :
    sampleState._storagePos + 4 * sampleState._numCols < 2 ^ 32 ∧
    sampleState.getSize ≤ (sampleState.writeRow [105, 3000000]).1.getSize :=
  ⟨by decide, (writeRow_cost sampleState [105, 3000000] (by decide)).2.2.2.2.1⟩

/-- C15. After every `writeRow(row)` call, whichever branch was taken and
whichever level each column took, `_lastValsPntr[c]` is `row[c]` for every
column `c < numCols`: the whole value as given, with no truncation (for a row
of length `numCols` the first `numCols` cells are the row itself); cells from
`numCols` on, `_numCols` and `_originRefreshInt` are unchanged. -/
theorem writeRow_lastVals (s : RDES2Comp) (rowData : List Nat)
    (hlen : rowData.length = s._numCols) :
    (List.range s._numCols).map (s.writeRow rowData).1._lastValsPntr = rowData ∧
    (∀ c, c < s._numCols →
      (s.writeRow rowData).1._lastValsPntr c = RDES2Comp.rowAt rowData c) ∧
    (∀ c, s._numCols ≤ c → (s.writeRow rowData).1._lastValsPntr c = s._lastValsPntr c) ∧
    (s.writeRow rowData).1._numCols = s._numCols ∧
    (s.writeRow rowData).1._originRefreshInt = s._originRefreshInt := by
  obtain ⟨f1, f2, -, -, f5⟩ := writeRow_state s rowData
  refine ⟨?_, fun c hc => by rw [f5 c, if_pos hc], fun c hc => by rw [f5 c, if_neg (by omega)],
    f1, f2⟩
  conv_rhs => rw [← row_eq_map_rowAt rowData s._numCols hlen]
  apply List.map_congr_left
  intro c hc
  rw [List.mem_range] at hc
  rw [f5 c, if_pos hc]

/-- Witness of C15: the sample state and a row whose first value has bit 31
set. -/
theorem writeRow_lastVals_witness :
    (List.range sampleState._numCols).map
      (sampleState.writeRow [2147483653, 7]).1._lastValsPntr = [2147483653, 7] :=
  (writeRow_lastVals sampleState [2147483653, 7] (by decide)).1

theorem writeRows_initialized (rows : List (List Nat)) :
    ∀ s : RDES2Comp, (rows ≠ [] ∨ s._initialized = true) →
      (writeRows s rows)._initialized = true := by
  induction rows with
  | nil =>
    intro s h
    rcases h with h | h
    · exact absurd rfl h
    · rw [writeRows_nil]; exact h
  | cons r rs ih =>
    intro s _
    rw [writeRows_cons]
    exact ih _ (Or.inr (writeRow_state s r).2.2.2.1)

/-- C16. The keyframe decision as a step function on arbitrary states:
`writeRow` takes its first branch exactly when `_initialized` is false or
(`_originRefreshInt > 0` and `_rowsSinceRaw >= _originRefreshInt`).  On that
branch every column is written as a 4-byte RawValue, whatever its difference
to the previous value, and afterwards `_rowsSinceRaw` is 0 and `_initialized`
is true; on the other branch `_initialized` was true and stays true.  So after
one or more `writeRow` calls the encoder is initialized. -/
theorem keyframe_rule (s : RDES2Comp) (rowData : List Nat) (rows : List (List Nat))
    (hne : rows ≠ []) :
    s.writeRow rowData =
      (if s._initialized = false ∨
          (s._originRefreshInt > 0 ∧ s._rowsSinceRaw ≥ s._originRefreshInt)
        then
          ({ rawLoopAt s rowData s._numCols with _rowsSinceRaw := 0, _initialized := true },
            true)
        else (deltaLoopAt s rowData s._numCols, true)) ∧
    bytesWritten (rawLoopAt s rowData s._numCols) =
      bytesWritten s ++
        (List.range s._numCols).flatMap (fun c => RawValue (RDES2Comp.rowAt rowData c)) ∧
    (deltaLoopAt s rowData s._numCols)._initialized = s._initialized ∧
    (deltaLoopAt s rowData s._numCols)._rowsSinceRaw = s._rowsSinceRaw ∧
    (s.writeRow rowData).1._initialized = true ∧
    (s.writeRow rowData).1._rowsSinceRaw =
      (if s._initialized = false ∨
          (s._originRefreshInt > 0 ∧ s._rowsSinceRaw ≥ s._originRefreshInt)
        then 0 else s._rowsSinceRaw) ∧
    (writeRows s rows)._initialized = true := by
  obtain ⟨-, -, f3, f4, -⟩ := writeRow_state s rowData
  obtain ⟨-, -, g3, g4, -⟩ := deltaLoopAt_frame s rowData s._numCols
  refine ⟨?_, rawLoopAt_bytes s rowData s._numCols, g4, g3, f4, f3,
    writeRows_initialized rows s (Or.inl hne)⟩
  by_cases hk : keyframeDue s
  · rw [writeRow_keyframe s rowData hk]
    exact (if_pos hk).symm
  · rw [writeRow_delta s rowData hk]
    exact (if_neg hk).symm

/-- Witness of C16: the sample state, a row and a sequence of two rows. -/
theorem keyframe_rule_witness :
    (writeRows sampleState [[1, 2], [3, 4]])._initialized = true :=
  (keyframe_rule sampleState [5, 6] [[1, 2], [3, 4]] (by decide)).2.2.2.2.2.2

theorem appendedBy_no_wrap (s t : RDES2Comp) (new : List (Nat × Nat))
    (h : AppendedBy s t new) (hfit : s._storagePos + new.length < 2 ^ 32) :
    new.map Prod.fst = List.range' s._storagePos new.length ∧
    t._storagePos = s._storagePos + new.length := by
  obtain ⟨-, -, h3, h4⟩ := h
  refine ⟨?_, by rw [h4]; exact Nat.mod_eq_of_lt hfit⟩
  rw [h3, List.range'_eq_map_range]
  apply List.map_congr_left
  intro k hk
  rw [List.mem_range] at hk
  exact Nat.mod_eq_of_lt (by omega)

theorem writeRow_stores_prefix (s : RDES2Comp) (rowData : List Nat) :
    s.stores <+: (s.writeRow rowData).1.stores :=
  writeRow_preserves (fun t => s.stores <+: t.stores)
    (fun t b h => by
      show s.stores <+: t.stores ++ [(t._storagePos, b)]
      exact List.IsPrefix.trans h (List.prefix_append _ _))
    (fun _ _ h => h) (fun _ h => h) s rowData (List.prefix_refl _)

theorem writeRow_call_stores (s : RDES2Comp) (rowData : List Nat)
    (hfit : s._storagePos + 4 * s._numCols < 2 ^ 32) :
    ∃ new, (s.writeRow rowData).1.stores = s.stores ++ new ∧
      (s.writeRow rowData).1._storagePntr = replay s._storagePntr new ∧
      new.map Prod.fst = List.range' s._storagePos new.length ∧
      (s.writeRow rowData).1._storagePos = s._storagePos + new.length ∧
      new.length = rowCost s rowData ∧ new.length ≤ 4 * s._numCols := by
  obtain ⟨new, hn⟩ := writeRow_appendedBy s rowData (by omega)
  obtain ⟨e, -, hi⟩ := writeRow_new_length s rowData new hn
  obtain ⟨i1, i2⟩ := appendedBy_no_wrap s _ new hn (by omega)
  exact ⟨new, hn.1, hn.2.1, i1, i2, e, hi⟩

/-- C13, refuted on the code: a fresh two-column encoder on a buffer of
declared capacity 4 is given the row `[1, 2]`; `writeRow` returns true, stores
at the indices 0 to 7 and leaves the cursor at 8. -/
theorem bounds_not_checked :
    ¬ BoundsChecked 4 (RDES2Comp.new 2 0 (fun _ => 0) (fun _ => 0)) [1, 2] ∧
    ((RDES2Comp.new 2 0 (fun _ => 0) (fun _ => 0)).writeRow [1, 2]).2 = true ∧
    ((RDES2Comp.new 2 0 (fun _ => 0) (fun _ => 0)).writeRow [1, 2]).1.getSize = 8 ∧
    ((RDES2Comp.new 2 0 (fun _ => 0) (fun _ => 0)).writeRow [1, 2]).1.stores.map Prod.fst =
      [0, 1, 2, 3, 4, 5, 6, 7] :=
  ⟨fun h => absurd h.2.1 (by decide), by decide, by decide, by decide⟩

/-- C13 as amended.  No byte write is checked against a capacity, which the
encoder is never given: in every state, whatever the cursor, `writeRow` makes
all the stores of the row (`rowCost` of them, after those made before) and
returns true.  While the cursor does not wrap
(`cursor + 4 * numCols < 2^32`), the cursor moves by `rowCost`, and the stores
of the call stay below a capacity, with the cursor ending at most at it,
exactly when the caller has left room: `cursor + rowCost <= capacity` before
the call. -/
theorem writeRow_within_capacity (capacity : Nat) (s : RDES2Comp) (rowData : List Nat) :
    (s.writeRow rowData).2 = true ∧
    (s.writeRow rowData).1.stores.length = s.stores.length + rowCost s rowData ∧
    s.stores <+: (s.writeRow rowData).1.stores ∧
    (s._storagePos + 4 * s._numCols < 2 ^ 32 →
      (s.writeRow rowData).1.getSize = s.getSize + rowCost s rowData ∧
      (((∀ e ∈ (s.writeRow rowData).1.stores.drop s.stores.length, e.1 < capacity) ∧
          (s.writeRow rowData).1.getSize ≤ capacity) ↔
        s.getSize + rowCost s rowData ≤ capacity)) := by
  refine ⟨?_, ?_, writeRow_stores_prefix s rowData, ?_⟩
  · by_cases hk : keyframeDue s
    · rw [writeRow_keyframe s rowData hk]
    · rw [writeRow_delta s rowData hk]
  · unfold rowCost
    exact writeRow_stores_length s rowData
  · intro hfit
    obtain ⟨new, h1, -, h3, h4, h5, -⟩ := writeRow_call_stores s rowData hfit
    have hd : (s.writeRow rowData).1.stores.drop s.stores.length = new := by
      rw [h1, List.drop_left]
    have hg : (s.writeRow rowData).1.getSize = s.getSize + rowCost s rowData := by
      unfold RDES2Comp.getSize
      rw [h4, h5]
    refine ⟨hg, ?_⟩
    rw [hd, hg]
    constructor
    · intro h; exact h.2
    · intro h
      refine ⟨fun e he => ?_, h⟩
      have : e.1 ∈ List.map Prod.fst new := List.mem_map_of_mem _ he
      rw [h3, List.mem_range'_1] at this
      unfold RDES2Comp.getSize at h
      omega

/-- Witness of C13 as amended: the sample state (cursor 8), the row
`[105, 99995]` and capacity 100. -/
theorem writeRow_within_capacity_witness :
    sampleState._storagePos + 4 * sampleState._numCols < 2 ^ 32 ∧
    (sampleState.writeRow [105, 99995]).1.getSize =
      sampleState.getSize + rowCost sampleState [105, 99995] :=
  ⟨by decide,
    ((writeRow_within_capacity 100 sampleState [105, 99995]).2.2.2 (by decide)).1⟩

theorem decodeCode31_raw (prev : Option Nat) (v : Nat) (rest : List Nat) :
    decodeCode31 prev (RawValue v ++ rest) = some (v % 2 ^ 31, rest) := by
  have hb : (v / 2 ^ 24 % 2 ^ 7).testBit 7 = false :=
    Nat.testBit_lt_two_pow (Nat.mod_lt _ (by norm_num))
  have hsum : (v / 2 ^ 24 % 2 ^ 7 * 2 ^ 24 + v / 2 ^ 16 % 2 ^ 8 * 2 ^ 16
      + v / 2 ^ 8 % 2 ^ 8 * 2 ^ 8 + v % 2 ^ 8) % 2 ^ 31 = v % 2 ^ 31 := by omega
  simp only [RawValue, List.cons_append, List.nil_append, decodeCode31, hb, if_true, hsum]

theorem decodeCode31_deltaCode (last cur : Nat) (rest : List Nat) :
    decodeCode31 (some (last % 2 ^ 31)) (deltaCode last cur ++ rest) =
      some (cur % 2 ^ 31, rest) := by
  unfold deltaCode
  simp only []
  by_cases hge : cur ≥ last
  · simp only [hge, if_true, decide_True]
    by_cases h2 : cur - last ≤ 8191
    · rw [if_pos h2]
      obtain ⟨-, ⟨b7, b6, b5, bm⟩, -, -⟩ := head_bits ((cur - last) / 2 ^ 8) (by omega)
      rw [(delta2_bytes _ h2).1]
      simp only [List.cons_append, List.nil_append, decodeCode31, b7, b6, b5, bm, if_true,
        Bool.true_eq_false, if_false]
      congr 2
      omega
    · rw [if_neg h2]
      by_cases h3 : cur - last ≤ 2097151
      · rw [if_pos h3]
        obtain ⟨-, -, -, ⟨b7, b6, b5, bm⟩⟩ := head_bits ((cur - last) / 2 ^ 16) (by omega)
        rw [(delta3_bytes _ h3).1]
        simp only [List.cons_append, List.nil_append, decodeCode31, b7, b6, b5, bm, if_true,
          Bool.true_eq_false, if_false]
        congr 2
        omega
      · rw [if_neg h3]; exact decodeCode31_raw _ cur rest
  · simp only [hge, if_false, decide_False]
    by_cases h2 : last - cur ≤ 8191
    · rw [if_pos h2]
      obtain ⟨⟨b7, b6, b5, bm⟩, -, -, -⟩ := head_bits ((last - cur) / 2 ^ 8) (by omega)
      rw [(delta2_bytes _ h2).2]
      simp only [List.cons_append, List.nil_append, decodeCode31, b7, b6, b5, bm, if_true,
        Bool.true_eq_false, if_false, Bool.false_eq_true]
      congr 2
      omega
    · rw [if_neg h2]
      by_cases h3 : last - cur ≤ 2097151
      · rw [if_pos h3]
        obtain ⟨-, -, ⟨b7, b6, b5, bm⟩, -⟩ := head_bits ((last - cur) / 2 ^ 16) (by omega)
        rw [(delta3_bytes _ h3).2]
        simp only [List.cons_append, List.nil_append, decodeCode31, b7, b6, b5, bm, if_true,
          Bool.true_eq_false, if_false, Bool.false_eq_true]
        congr 2
        omega
      · rw [if_neg h3]; exact decodeCode31_raw _ cur rest

theorem decodeRow31_flatMap (P : Nat → Option Nat) (code : Nat → List Nat) (val : Nat → Nat)
    (cs : List Nat)
    (h : ∀ c ∈ cs, ∀ rest, decodeCode31 (P c) (code c ++ rest) = some (val c, rest))
    (rest : List Nat) :
    decodeRow31 (cs.map P) (cs.flatMap code ++ rest) = some (cs.map val, rest) := by
  induction cs with
  | nil => simp [decodeRow31]
  | cons c cs ih =>
    have hc := h c (List.mem_cons_self c cs) (cs.flatMap code ++ rest)
    have ih1 := ih (fun d hd => h d (List.mem_cons_of_mem c hd))
    simp only [List.map_cons, List.flatMap_cons, List.append_assoc, decodeRow31, hc, ih1]

theorem decodeRows31_nil (fuel : Nat) (prevs : List (Option Nat)) :
    decodeRows31 fuel prevs [] = some [] := by
  cases fuel <;> rfl

theorem decodeRows31_step (fuel : Nat) (prevs : List (Option Nat)) (bytes rest : List Nat)
    (row : List Nat) (rows : List (List Nat)) (hne : bytes ≠ [])
    (h1 : decodeRow31 prevs bytes = some (row, rest))
    (h2 : decodeRows31 fuel (row.map some) rest = some rows) :
    decodeRows31 (fuel + 1) prevs bytes = some (row :: rows) := by
  cases bytes with
  | nil => exact absurd rfl hne
  | cons b bs => simp only [decodeRows31, h1, h2]

theorem map_fun_eq {α : Type} (f : Nat → α) (rowData : List Nat) (n : Nat)
    (hlen : rowData.length = n) (L : Nat → Nat)
    (hL : ∀ c, c < n → L c = RDES2Comp.rowAt rowData c) :
    rowData.map f = (List.range n).map (fun c => f (L c)) := by
  conv_lhs => rw [← row_eq_map_rowAt rowData n hlen]
  rw [List.map_map]
  apply List.map_congr_left
  intro c hc
  simp only [List.mem_range] at hc
  simp [hL c hc]

theorem writeRow_decodes31 (s : RDES2Comp) (rowData : List Nat) (prevs : List (Option Nat))
    (hlen : rowData.length = s._numCols) (hval : ∀ v ∈ rowData, v < 2 ^ 32)
    (hs : InSync31 s prevs) :
    ∃ out, bytesWritten (s.writeRow rowData).1 = bytesWritten s ++ out ∧
      (∀ rest, decodeRow31 prevs (out ++ rest) =
        some (rowData.map (fun v => v % 2 ^ 31), rest)) ∧
      2 * s._numCols ≤ out.length ∧
      InSync31 (s.writeRow rowData).1 ((rowData.map (fun v => v % 2 ^ 31)).map some) := by
  have hcur32 : ∀ c, RDES2Comp.rowAt rowData c < 2 ^ 32 :=
    rowAt_lt rowData _ (by norm_num) hval
  obtain ⟨f1, -, -, -, f5⟩ := writeRow_state s rowData
  have hrow : (List.range s._numCols).map (fun c => RDES2Comp.rowAt rowData c % 2 ^ 31) =
      rowData.map (fun v => v % 2 ^ 31) :=
    (map_fun_eq (fun v => v % 2 ^ 31) rowData _ hlen (RDES2Comp.rowAt rowData)
      (fun _ _ => rfl)).symm
  have hsync : InSync31 (s.writeRow rowData).1 ((rowData.map (fun v => v % 2 ^ 31)).map some) := by
    refine ⟨by simp [hlen, f1], fun _ => ⟨?_, ?_⟩⟩
    · rw [List.map_map, f1]
      exact map_fun_eq (some ∘ fun v => v % 2 ^ 31) rowData _ hlen _
        (fun c hc => by rw [f5 c, if_pos hc])
    · intro c hc
      rw [f1] at hc
      rw [f5 c, if_pos hc]
      exact hcur32 c
  by_cases hk : keyframeDue s
  · refine ⟨(List.range s._numCols).flatMap (fun c => RawValue (RDES2Comp.rowAt rowData c)),
      writeRow_bytes_keyframe s rowData hk, ?_, ?_, hsync⟩
    · intro rest
      have hp : prevs = (List.range s._numCols).map (fun c => prevs.getD c none) := by
        rw [← hs.1, map_getD_range]
      have := decodeRow31_flatMap (fun c => prevs.getD c none)
        (fun c => RawValue (RDES2Comp.rowAt rowData c))
        (fun c => RDES2Comp.rowAt rowData c % 2 ^ 31)
        (List.range s._numCols) (fun c _ r => decodeCode31_raw _ _ r) rest
      rw [← hp, hrow] at this
      exact this
    · have := flatMap_length_ge (fun c => RawValue (RDES2Comp.rowAt rowData c))
        (List.range s._numCols) (fun c _ => by simp [RawValue])
      simpa using this
  · have hi := not_due_initialized s hk
    obtain ⟨hp, hb⟩ := hs.2 hi
    refine ⟨(List.range s._numCols).flatMap
        (fun c => deltaCode (s._lastValsPntr c) (RDES2Comp.rowAt rowData c)),
      writeRow_bytes_delta s rowData hk hb (fun c _ => hcur32 c), ?_, ?_, hsync⟩
    · intro rest
      have := decodeRow31_flatMap (fun c => some (s._lastValsPntr c % 2 ^ 31))
        (fun c => deltaCode (s._lastValsPntr c) (RDES2Comp.rowAt rowData c))
        (fun c => RDES2Comp.rowAt rowData c % 2 ^ 31)
        (List.range s._numCols) (fun c _ r => decodeCode31_deltaCode _ _ r) rest
      rw [← hp, hrow] at this
      exact this
    · have := flatMap_length_ge
        (fun c => deltaCode (s._lastValsPntr c) (RDES2Comp.rowAt rowData c))
        (List.range s._numCols) (fun c _ => by
          rcases deltaCode_length (s._lastValsPntr c) (RDES2Comp.rowAt rowData c) with h | h | h
            <;> simp only [h] <;> omega)
      simpa using this

theorem writeRows_decodes31 (rows : List (List Nat)) :
    ∀ (s : RDES2Comp) (prevs : List (Option Nat)), 1 ≤ s._numCols →
      (∀ r ∈ rows, r.length = s._numCols) → (∀ r ∈ rows, ∀ v ∈ r, v < 2 ^ 32) →
      InSync31 s prevs →
      ∃ out, bytesWritten (writeRows s rows) = bytesWritten s ++ out ∧
        rows.length ≤ out.length ∧
        ∀ fuel, rows.length ≤ fuel →
          decodeRows31 fuel prevs out = some (rows.map (fun r => r.map (fun v => v % 2 ^ 31))) := by
  induction rows with
  | nil =>
    intro s prevs _ _ _ _
    exact ⟨[], by simp [writeRows], by simp, fun fuel _ => decodeRows31_nil fuel prevs⟩
  | cons r rs ih =>
    intro s prevs hn hlen hval hs
    obtain ⟨out1, hb1, hd1, hl1, hs1⟩ :=
      writeRow_decodes31 s r prevs (hlen r (List.mem_cons_self r rs))
        (hval r (List.mem_cons_self r rs)) hs
    have hnum : (s.writeRow r).1._numCols = s._numCols := (writeRow_state s r).1
    obtain ⟨out2, hb2, hl2, hd2⟩ := ih (s.writeRow r).1 ((r.map (fun v => v % 2 ^ 31)).map some)
      (by omega)
      (fun q hq => by rw [hnum]; exact hlen q (List.mem_cons_of_mem r hq))
      (fun q hq => hval q (List.mem_cons_of_mem r hq)) hs1
    refine ⟨out1 ++ out2, ?_, ?_, ?_⟩
    · rw [writeRows_cons, hb2, hb1, List.append_assoc]
    · simp only [List.length_cons, List.length_append]
      omega
    · intro fuel hf
      obtain ⟨f, rfl⟩ : ∃ f, fuel = f + 1 := ⟨fuel - 1, by simp at hf; omega⟩
      have hne : out1 ++ out2 ≠ [] := by
        intro h
        have := congrArg List.length h
        rw [List.length_append, List.length_nil] at this
        omega
      rw [List.map_cons]
      exact decodeRows31_step f prevs (out1 ++ out2) out2 _ _ hne (hd1 out2)
        (hd2 f (by simp at hf; omega))

/-- C18. Outside the 31-bit domain: for `numCols` in [1,255] and every sequence
of rows of length `numCols` of arbitrary 32-bit values, written in order to a
fresh encoder, the wire-format decoder working modulo 2^31 reads back, for
every row and column, exactly `row[c] & 0x7FFFFFFF`, using up the stream: the
bit 31 lost in a raw code does not disturb the low 31 bits of the values
that follow as delta codes. -/
theorem low31_round_trip (numCols refreshInterval : Nat) (storage heap : Nat → Nat)
    (rows : List (List Nat)) (h1 : 1 ≤ numCols) (h2 : numCols ≤ 255)
    (hlen : ∀ r ∈ rows, r.length = numCols) (hval : ∀ r ∈ rows, ∀ v ∈ r, v < 2 ^ 32) :
    decode31 numCols
      (bytesWritten (writeRows (RDES2Comp.new numCols refreshInterval storage heap) rows)) =
      some (rows.map (fun r => r.map (fun v => v &&& 0x7FFFFFFF))) := by
  have hn : (RDES2Comp.new numCols refreshInterval storage heap)._numCols = numCols := by
    show numCols % 2 ^ 8 = numCols
    omega
  have hand : (fun v : Nat => v &&& 0x7FFFFFFF) = (fun v => v % 2 ^ 31) := by
    funext v
    exact Nat.and_pow_two_sub_one_eq_mod v 31
  obtain ⟨out, hb, hl, hd⟩ := writeRows_decodes31 rows
    (RDES2Comp.new numCols refreshInterval storage heap) (List.replicate numCols none)
    (by rw [hn]; exact h1) (by rw [hn]; exact hlen) hval
    ⟨by rw [hn, List.length_replicate], fun h => by simp [RDES2Comp.new] at h⟩
  have h0 : bytesWritten (RDES2Comp.new numCols refreshInterval storage heap) = [] := rfl
  rw [hb, h0, List.nil_append, hand]
  exact hd _ hl

/-- Witness of C18: two columns; the values 4294967295 and 2147483648 have
bit 31 set, and the rows that follow them are delta rows. -/
theorem low31_round_trip_witness :
    decode31 2 (bytesWritten (writeRows (RDES2Comp.new 2 0 (fun _ => 0) (fun _ => 0))
      [[4294967295, 2147483648], [4294967290, 2147483647], [5, 2147483700]])) =
      some ([[4294967295, 2147483648], [4294967290, 2147483647], [5, 2147483700]].map
        (fun r => r.map (fun v => v &&& 0x7FFFFFFF))) :=
  low31_round_trip 2 0 (fun _ => 0) (fun _ => 0)
    [[4294967295, 2147483648], [4294967290, 2147483647], [5, 2147483700]]
    (by decide) (by decide) (by decide) (by decide)
